import Mathlib

set_option maxHeartbeats 1000000
set_option maxRecDepth 4000

/-!
Formal model of `src/tn3.py`, a single-process earthquake-feed cache and
web server.  The development embeds, faithfully to the Python source:

* the JSON values the program stores and serves (`Json`), with Python's
  `json.dumps(..., indent=2)` serializer (`dumps`) and the `json.loads`
  parser (`loads`); numbers are modelled as exact decimals `m / 10 ^ e`
  (Python serializes a float via its shortest decimal representation,
  which parses back to an equal value, so exact decimals model the
  serialized data faithfully);
* the cache store `sauvegarde_json` / `chargement_json`;
* the fetch wrapper `chargement_tremblements` (network outcomes are a
  parameter, since the model cannot perform network calls);
* the pure view pipeline `extract_evenements`, `trie_evenements` and the
  event computation of `page_web` (Python dynamic-typing failures such as
  `AttributeError`/`TypeError` are modelled with `Except`);
* the refresh handlers `maj_manuelle` / one iteration of `maj_auto`, and
  an interleaving model of their concurrent executions.
-/

/-- JSON values as handled by the program.  A number `num m e` denotes the
decimal `m / 10 ^ e`. -/
inductive Json where
  | null : Json
  | bool : Bool → Json
  | num : Int → Nat → Json
  | str : String → Json
  | arr : List Json → Json
  | obj : List (String × Json) → Json

/-- Numeric value of a decimal number `m / 10 ^ e`. -/
def decVal (m : Int) (e : Nat) : ℚ := (m : ℚ) / (10 : ℚ) ^ e

/-- Induction principle for `Json` giving hypotheses for the members of
arrays and the field values of objects. -/
theorem Json.rec_mem {P : Json → Prop}
    (h0 : P .null) (h1 : ∀ b, P (.bool b)) (h2 : ∀ m e, P (.num m e))
    (h3 : ∀ s, P (.str s))
    (h4 : ∀ xs, (∀ x ∈ xs, P x) → P (.arr xs))
    (h5 : ∀ fs, (∀ p ∈ fs, P p.2) → P (.obj fs)) :
    ∀ j, P j
  | .null => h0
  | .bool b => h1 b
  | .num m e => h2 m e
  | .str s => h3 s
  | .arr xs => h4 xs (fun x _ => Json.rec_mem h0 h1 h2 h3 h4 h5 x)
  | .obj fs => h5 fs (fun p _ => Json.rec_mem h0 h1 h2 h3 h4 h5 p.2)
termination_by j => sizeOf j
decreasing_by
  · have h := List.sizeOf_lt_of_mem (by assumption : x ∈ xs)
    simp only [Json.arr.sizeOf_spec]
    omega
  · have h := List.sizeOf_lt_of_mem (by assumption : p ∈ fs)
    obtain ⟨k, v⟩ := p
    simp only [Json.obj.sizeOf_spec, Prod.mk.sizeOf_spec] at h ⊢
    omega

mutual

/-- Boolean structural equality on `Json`. -/
def Json.beq : Json → Json → Bool
  | .null, .null => true
  | .bool a, .bool b => a == b
  | .num m e, .num m' e' => m == m' && e == e'
  | .str s, .str t => s == t
  | .arr xs, .arr ys => Json.beqList xs ys
  | .obj fs, .obj gs => Json.beqFields fs gs
  | _, _ => false

/-- Boolean equality on lists of `Json`. -/
def Json.beqList : List Json → List Json → Bool
  | [], [] => true
  | x :: xs, y :: ys => Json.beq x y && Json.beqList xs ys
  | _, _ => false

/-- Boolean equality on object field lists. -/
def Json.beqFields : List (String × Json) → List (String × Json) → Bool
  | [], [] => true
  | (k, v) :: fs, (k', v') :: gs => k == k' && Json.beq v v' && Json.beqFields fs gs
  | _, _ => false

end

theorem Json.beq_iff : ∀ a b : Json, Json.beq a b = true ↔ a = b := by
  intro a
  induction a using Json.rec_mem with
  | h0 => intro b; cases b <;> simp [Json.beq]
  | h1 x => intro b; cases b <;> simp [Json.beq]
  | h2 m e => intro b; cases b <;> simp [Json.beq]
  | h3 s => intro b; cases b <;> simp [Json.beq]
  | h4 xs ih =>
      intro b
      cases b <;> simp only [Json.beq] <;> try simp
      rename_i ys
      have key : ∀ ys, Json.beqList xs ys = true ↔ xs = ys := by
        induction xs with
        | nil =>
            intro ys
            cases ys <;> simp [Json.beqList]
        | cons x xs ihl =>
            intro ys
            cases ys with
            | nil => simp [Json.beqList]
            | cons y ys =>
                simp only [Json.beqList, Bool.and_eq_true, List.cons.injEq]
                rw [ih x (by simp) y, ihl (fun z hz => ih z (by simp [hz])) ys]
      rw [key ys]
  | h5 fs ih =>
      intro b
      cases b <;> simp only [Json.beq] <;> try simp
      rename_i gs
      have key : ∀ gs, Json.beqFields fs gs = true ↔ fs = gs := by
        induction fs with
        | nil =>
            intro gs
            cases gs with
            | nil => simp [Json.beqFields]
            | cons g gs => obtain ⟨k', v'⟩ := g; simp [Json.beqFields]
        | cons f fs ihl =>
            intro gs
            obtain ⟨k, v⟩ := f
            cases gs with
            | nil => simp [Json.beqFields]
            | cons g gs =>
                obtain ⟨k', v'⟩ := g
                simp only [Json.beqFields, Bool.and_eq_true, beq_iff_eq,
                  List.cons.injEq, Prod.mk.injEq]
                rw [ih (k, v) (by simp) v', ihl (fun z hz => ih z (by simp [hz])) gs]
      rw [key gs]

instance : DecidableEq Json := fun a b => decidable_of_iff _ (Json.beq_iff a b)

/-- Python truthiness (`bool(x)`) of a JSON value: `None`, `False`, numeric
zero, the empty string, the empty list and the empty dict are falsy. -/
def Json.truthy : Json → Bool
  | .null => false
  | .bool b => b
  | .num m _ => m != 0
  | .str s => s != ""
  | .arr xs => !xs.isEmpty
  | .obj fs => !fs.isEmpty

/-! ### Serialization: `json.dumps(..., indent=2)` -/

/-- The double-quote character. -/
def quoteChar : Char := Char.ofNat 34

/-- The backslash character. -/
def backslashChar : Char := Char.ofNat 92

/-- The newline character. -/
def newlineChar : Char := Char.ofNat 10

/-- The opening-brace character. -/
def lbraceChar : Char := Char.ofNat 123

/-- The closing-brace character. -/
def rbraceChar : Char := Char.ofNat 125

/-- A run of `n` spaces (indentation). -/
def spacesChars (n : Nat) : List Char := List.replicate n ' '

/-- Hexadecimal digit characters, lowercase as emitted by Python. -/
def hexDigitChar (n : Nat) : Char :=
  if n = 0 then '0' else if n = 1 then '1' else if n = 2 then '2'
  else if n = 3 then '3' else if n = 4 then '4' else if n = 5 then '5'
  else if n = 6 then '6' else if n = 7 then '7' else if n = 8 then '8'
  else if n = 9 then '9' else if n = 10 then 'a' else if n = 11 then 'b'
  else if n = 12 then 'c' else if n = 13 then 'd' else if n = 14 then 'e'
  else 'f'

/-- Four-digit lowercase hexadecimal rendering of `n < 0x10000`. -/
def hex4 (n : Nat) : List Char :=
  [hexDigitChar (n / 4096 % 16), hexDigitChar (n / 256 % 16),
   hexDigitChar (n / 16 % 16), hexDigitChar (n % 16)]

/-- Decimal digits of a natural number, most significant first (`fuel`-based
recursion; `fuel > n` suffices). -/
def digitsAux : Nat → Nat → List Char
  | 0, _ => []
  | fuel + 1, n =>
      if n < 10 then [hexDigitChar n]
      else digitsAux fuel (n / 10) ++ [hexDigitChar (n % 10)]

/-- Decimal digit string of a natural number (`repr` of a Python int). -/
def natToDigits (n : Nat) : List Char := digitsAux (n + 1) n

/-- Pad a digit string with leading zeros up to length `len`. -/
def leftPadZeros (len : Nat) (ds : List Char) : List Char :=
  List.replicate (len - ds.length) '0' ++ ds

/-- Rendering of the decimal number `m / 10 ^ e`, as Python renders the
corresponding int (`e = 0`) or float (`e > 0`, decimal point before the
last `e` digits). -/
def renderNum (m : Int) (e : Nat) : List Char :=
  if e = 0 then
    (if m < 0 then ['-'] else []) ++ natToDigits m.natAbs
  else
    let padded := leftPadZeros (e + 1) (natToDigits m.natAbs)
    (if m < 0 then ['-'] else []) ++
      padded.take (padded.length - e) ++ '.' :: padded.drop (padded.length - e)

/-- Escape one character the way Python's `json.dumps` (with the default
`ensure_ascii=True`) does: two-character escapes for the quote, backslash
and common control characters, `\uXXXX` for other characters outside
`0x20..0x7e`, with surrogate pairs above `0xFFFF`. -/
def escChar (c : Char) : List Char :=
  if c = quoteChar then [backslashChar, quoteChar]
  else if c = backslashChar then [backslashChar, backslashChar]
  else if c.toNat = 10 then [backslashChar, 'n']
  else if c.toNat = 9 then [backslashChar, 't']
  else if c.toNat = 13 then [backslashChar, 'r']
  else if c.toNat = 8 then [backslashChar, 'b']
  else if c.toNat = 12 then [backslashChar, 'f']
  else if 32 ≤ c.toNat ∧ c.toNat ≤ 126 then [c]
  else if c.toNat < 65536 then backslashChar :: 'u' :: hex4 c.toNat
  else
    backslashChar :: 'u' :: hex4 (55296 + (c.toNat - 65536) / 1024) ++
      backslashChar :: 'u' :: hex4 (56320 + (c.toNat - 65536) % 1024)

/-- Escape a list of characters. -/
def escList : List Char → List Char
  | [] => []
  | c :: t => escChar c ++ escList t

/-- Quoted, escaped rendering of a string. -/
def escString (s : String) : List Char := quoteChar :: escList s.data ++ [quoteChar]

mutual

/-- Characters produced by `json.dumps(x, indent=2)` for a value nested at
indentation level `lvl`. -/
def renderJ : Nat → Json → List Char
  | _, .null => ['n', 'u', 'l', 'l']
  | _, .bool true => ['t', 'r', 'u', 'e']
  | _, .bool false => ['f', 'a', 'l', 's', 'e']
  | _, .num m e => renderNum m e
  | _, .str s => escString s
  | _, .arr [] => ['[', ']']
  | lvl, .arr (x :: xs) =>
      '[' :: newlineChar :: renderItems lvl (x :: xs) ++
        newlineChar :: spacesChars (lvl * 2) ++ [']']
  | _, .obj [] => [lbraceChar, rbraceChar]
  | lvl, .obj (f :: fs) =>
      lbraceChar :: newlineChar :: renderFields lvl (f :: fs) ++
        newlineChar :: spacesChars (lvl * 2) ++ [rbraceChar]

/-- Rendering of the items of a non-empty array, one per line, separated by
`,\n`, each indented one level deeper. -/
def renderItems : Nat → List Json → List Char
  | _, [] => []
  | lvl, [x] => spacesChars ((lvl + 1) * 2) ++ renderJ (lvl + 1) x
  | lvl, x :: y :: xs =>
      spacesChars ((lvl + 1) * 2) ++ renderJ (lvl + 1) x ++
        ',' :: newlineChar :: renderItems lvl (y :: xs)

/-- Rendering of the fields of a non-empty object, `"key": value` per line. -/
def renderFields : Nat → List (String × Json) → List Char
  | _, [] => []
  | lvl, [(k, v)] =>
      spacesChars ((lvl + 1) * 2) ++ escString k ++ ':' :: ' ' :: renderJ (lvl + 1) v
  | lvl, (k, v) :: g :: fs =>
      spacesChars ((lvl + 1) * 2) ++ escString k ++ ':' :: ' ' :: renderJ (lvl + 1) v ++
        ',' :: newlineChar :: renderFields lvl (g :: fs)

end

/-- Python's `json.dumps(x, indent=2)`, as used by `sauvegarde_json`. -/
def dumps (x : Json) : String := String.mk (renderJ 0 x)

/-! ### Parsing: `json.loads` -/

/-- JSON whitespace accepted between tokens (space, tab, newline, carriage
return). -/
def isWsChar (c : Char) : Bool :=
  c.toNat = 32 || c.toNat = 9 || c.toNat = 10 || c.toNat = 13

/-- Skip leading JSON whitespace. -/
def skipWs (l : List Char) : List Char := l.dropWhile isWsChar

/-- Decimal digit test. -/
def isDigitChar (c : Char) : Bool := 48 ≤ c.toNat && c.toNat ≤ 57

/-- Value of one hexadecimal digit (either case), if any. -/
def hexVal (c : Char) : Option Nat :=
  if 48 ≤ c.toNat ∧ c.toNat ≤ 57 then some (c.toNat - 48)
  else if 97 ≤ c.toNat ∧ c.toNat ≤ 102 then some (c.toNat - 87)
  else if 65 ≤ c.toNat ∧ c.toNat ≤ 70 then some (c.toNat - 55)
  else none

/-- Parse exactly four hexadecimal digits. -/
def parseHex4 : List Char → Option (Nat × List Char)
  | a :: b :: c :: d :: rest =>
      match hexVal a, hexVal b, hexVal c, hexVal d with
      | some va, some vb, some vc, some vd =>
          some (((va * 16 + vb) * 16 + vc) * 16 + vd, rest)
      | _, _, _, _ => none
  | _ => none

/-- Parse the body of a JSON string after the opening quote, up to and
including the closing quote, undoing the escapes of `escChar` (surrogate
pairs are recombined; a raw control character or a lone surrogate is
rejected).  One fuel unit is spent per produced character, so any
`fuel > ` number of remaining input characters suffices. -/
def parseStrAux : Nat → List Char → Option (List Char × List Char)
  | 0, _ => none
  | _ + 1, [] => none
  | fuel + 1, c :: rest =>
      if c = quoteChar then some ([], rest)
      else if c = backslashChar then
        match rest with
        | [] => none
        | e :: rest2 =>
            if e = quoteChar then
              (parseStrAux fuel rest2).map (fun p => (quoteChar :: p.1, p.2))
            else if e = backslashChar then
              (parseStrAux fuel rest2).map (fun p => (backslashChar :: p.1, p.2))
            else if e = '/' then
              (parseStrAux fuel rest2).map (fun p => ('/' :: p.1, p.2))
            else if e = 'b' then
              (parseStrAux fuel rest2).map (fun p => (Char.ofNat 8 :: p.1, p.2))
            else if e = 'f' then
              (parseStrAux fuel rest2).map (fun p => (Char.ofNat 12 :: p.1, p.2))
            else if e = 'n' then
              (parseStrAux fuel rest2).map (fun p => (newlineChar :: p.1, p.2))
            else if e = 'r' then
              (parseStrAux fuel rest2).map (fun p => (Char.ofNat 13 :: p.1, p.2))
            else if e = 't' then
              (parseStrAux fuel rest2).map (fun p => (Char.ofNat 9 :: p.1, p.2))
            else if e = 'u' then
              match parseHex4 rest2 with
              | none => none
              | some (n, rest3) =>
                  if 55296 ≤ n ∧ n < 56320 then
                    match rest3 with
                    | b1 :: u1 :: rest4 =>
                        if b1 = backslashChar ∧ u1 = 'u' then
                          match parseHex4 rest4 with
                          | some (n2, rest5) =>
                              if 56320 ≤ n2 ∧ n2 < 57344 then
                                (parseStrAux fuel rest5).map
                                  (fun p =>
                                    (Char.ofNat (65536 + (n - 55296) * 1024 + (n2 - 56320)) ::
                                      p.1, p.2))
                              else none
                          | none => none
                        else none
                    | _ => none
                  else if 56320 ≤ n ∧ n < 57344 then none
                  else (parseStrAux fuel rest3).map (fun p => (Char.ofNat n :: p.1, p.2))
            else none
      else if c.toNat < 32 then none
      else (parseStrAux fuel rest).map (fun p => (c :: p.1, p.2))

/-- Maximal run of decimal digits at the front of the input. -/
def spanDigits (l : List Char) : List Char × List Char :=
  (l.takeWhile isDigitChar, l.dropWhile isDigitChar)

/-- Numeric value of a digit string. -/
def digitsVal (ds : List Char) : Nat :=
  ds.foldl (fun a c => a * 10 + (c.toNat - 48)) 0

/-- Parse the integer part of a JSON number: `0` or a digit string without
a leading zero (Python's `(?:0|[1-9]\d+)` alternative; a leading-zero run
makes the whole document invalid either here or at the following digit). -/
def parseIntPart (l : List Char) : Option (Nat × List Char) :=
  match spanDigits l with
  | ([], _) => none
  | (ds, r) =>
      if 1 < ds.length ∧ ds.head? = some '0' then none else some (digitsVal ds, r)

/-- Parse an optional fraction `.digits`; like Python's number regex the
dot is consumed only when at least one digit follows.  Returns the value
of the fraction digits, their count, and the rest. -/
def parseFrac (l : List Char) : Nat × Nat × List Char :=
  match l with
  | c :: rest =>
      if c = '.' then
        match spanDigits rest with
        | ([], _) => (0, 0, l)
        | (ds, r) => (digitsVal ds, ds.length, r)
      else (0, 0, l)
  | [] => (0, 0, l)

/-- Parse an optional exponent `e[+-]digits`, consumed only when well
formed, as in Python's number regex. -/
def parseExp (l : List Char) : Int × List Char :=
  match l with
  | c :: rest =>
      if c = 'e' ∨ c = 'E' then
        match rest with
        | s :: rest2 =>
            if s = '+' then
              match spanDigits rest2 with
              | ([], _) => (0, l)
              | (ds, r) => ((digitsVal ds : Int), r)
            else if s = '-' then
              match spanDigits rest2 with
              | ([], _) => (0, l)
              | (ds, r) => (-(digitsVal ds : Int), r)
            else
              match spanDigits rest with
              | ([], _) => (0, l)
              | (ds, r) => ((digitsVal ds : Int), r)
        | [] => (0, l)
      else (0, l)
  | [] => (0, l)

/-- Parse a JSON number (integer part, optional fraction, optional
exponent) into an exact decimal. -/
def parseNumber (l : List Char) : Option (Json × List Char) :=
  let sl := match l with
    | c :: r => if c = '-' then (true, r) else (false, l)
    | [] => (false, l)
  match parseIntPart sl.2 with
  | none => none
  | some (ipart, l2) =>
      let fr := parseFrac l2
      let ex := parseExp fr.2.2
      let mAbs : Int := (ipart * 10 ^ fr.2.1 + fr.1 : Nat)
      let m : Int := if sl.1 then -mAbs else mAbs
      if fr.2.1 = 0 ∧ ex.1 = 0 then some (Json.num m 0, ex.2)
      else
        let sh : Int := ex.1 - fr.2.1
        if 0 ≤ sh then some (Json.num (m * 10 ^ sh.toNat) 0, ex.2)
        else some (Json.num m (-sh).toNat, ex.2)

/-- Insert a key into an association list the way assignment into a Python
dict does: update the value in place if the key is present, else append. -/
def dictInsert (fs : List (String × Json)) (k : String) (v : Json) :
    List (String × Json) :=
  match fs with
  | [] => [(k, v)]
  | (k', v') :: t => if k' = k then (k', v) :: t else (k', v') :: dictInsert t k v

/-- Build a Python dict from parsed fields in order (later duplicate keys
overwrite the value but keep the first position). -/
def dedupFields (raw : List (String × Json)) : List (String × Json) :=
  raw.foldl (fun acc p => dictInsert acc p.1 p.2) []

mutual

/-- Parse one JSON value after skipping leading whitespace.  Fuel bounds
the nesting structure; `Json.size` of the parsed value suffices. -/
def parseTok : Nat → List Char → Option (Json × List Char)
  | 0, _ => none
  | fuel + 1, input =>
      match skipWs input with
      | [] => none
      | c :: rest =>
          if c = quoteChar then
            (parseStrAux (rest.length + 1) rest).map
              (fun p => (Json.str (String.mk p.1), p.2))
          else if c = 'n' then
            match rest with
            | 'u' :: 'l' :: 'l' :: r => some (Json.null, r)
            | _ => none
          else if c = 't' then
            match rest with
            | 'r' :: 'u' :: 'e' :: r => some (Json.bool true, r)
            | _ => none
          else if c = 'f' then
            match rest with
            | 'a' :: 'l' :: 's' :: 'e' :: r => some (Json.bool false, r)
            | _ => none
          else if c = '[' then
            (parseItems fuel rest).map (fun p => (Json.arr p.1, p.2))
          else if c = lbraceChar then
            (parseFields fuel rest).map (fun p => (Json.obj (dedupFields p.1), p.2))
          else if c = '-' ∨ isDigitChar c then parseNumber (c :: rest)
          else none

/-- Parse the items of an array after the opening bracket, including the
closing bracket. -/
def parseItems : Nat → List Char → Option (List Json × List Char)
  | 0, _ => none
  | fuel + 1, input =>
      match skipWs input with
      | [] => none
      | c :: r =>
          if c = ']' then some ([], r)
          else
            match parseTok fuel input with
            | none => none
            | some (v, r1) =>
                match skipWs r1 with
                | c2 :: r2 =>
                    if c2 = ',' then
                      match parseItems fuel r2 with
                      | some (vs, r3) => some (v :: vs, r3)
                      | none => none
                    else if c2 = ']' then some ([v], r2)
                    else none
                | [] => none

/-- Parse the fields of an object after the opening brace, including the
closing brace.  Keys must be strings. -/
def parseFields : Nat → List Char → Option (List (String × Json) × List Char)
  | 0, _ => none
  | fuel + 1, input =>
      match skipWs input with
      | [] => none
      | c :: r =>
          if c = rbraceChar then some ([], r)
          else if c = quoteChar then
            match parseStrAux (r.length + 1) r with
            | none => none
            | some (k, r1) =>
                match skipWs r1 with
                | c2 :: r2 =>
                    if c2 = ':' then
                      match parseTok fuel r2 with
                      | none => none
                      | some (v, r3) =>
                          match skipWs r3 with
                          | c3 :: r4 =>
                              if c3 = ',' then
                                match parseFields fuel r4 with
                                | some (fs, r5) =>
                                    some ((String.mk k, v) :: fs, r5)
                                | none => none
                              else if c3 = rbraceChar then
                                some ([(String.mk k, v)], r4)
                              else none
                          | [] => none
                    else none
                | [] => none
          else none

end

/-- Python's `json.loads`: parse one value and require that only
whitespace follows.  (`NaN`/`Infinity` literals, which never occur in
data written by this program, are not modelled.) -/
def loads (s : String) : Option Json :=
  match parseTok (s.data.length + 1) s.data with
  | some (v, rest) => if skipWs rest = [] then some v else none
  | none => none

/-! ### Round-trip: `loads (dumps x) = some x` -/

mutual

/-- Fuel bound needed to parse a value: one unit per structural step. -/
def Json.size : Json → Nat
  | .arr xs => 1 + Json.sizeItems xs
  | .obj fs => 1 + Json.sizeFields fs
  | _ => 1

/-- Fuel bound for the item list of an array. -/
def Json.sizeItems : List Json → Nat
  | [] => 1
  | x :: l => 1 + Json.size x + Json.sizeItems l

/-- Fuel bound for the field list of an object. -/
def Json.sizeFields : List (String × Json) → Nat
  | [] => 1
  | (_, v) :: l => 1 + Json.size v + Json.sizeFields l

end

/-- Pairwise-distinct key list (a JSON object arising from a Python dict
has no duplicate keys). -/
def keysOk : List String → Bool
  | [] => true
  | k :: t => !t.contains k && keysOk t

mutual

/-- A JSON value all of whose objects have pairwise-distinct keys — the
values that correspond to Python data (`json.loads` collapses duplicate
keys, so only such values are produced or persisted by the program). -/
def Json.wf : Json → Bool
  | .arr xs => Json.wfList xs
  | .obj fs => keysOk (fs.map Prod.fst) && Json.wfFields fs
  | _ => true

/-- `Json.wf` on array items. -/
def Json.wfList : List Json → Bool
  | [] => true
  | x :: l => Json.wf x && Json.wfList l

/-- `Json.wf` on object field values. -/
def Json.wfFields : List (String × Json) → Bool
  | [] => true
  | (_, v) :: l => Json.wf v && Json.wfFields l

end

theorem dictInsert_of_not_mem (acc : List (String × Json)) (k : String) (v : Json)
    (h : (acc.map Prod.fst).contains k = false) :
    dictInsert acc k v = acc ++ [(k, v)] := by
  induction acc with
  | nil => rfl
  | cons p t ih =>
      obtain ⟨k', v'⟩ := p
      simp only [List.map_cons, List.contains_cons, Bool.or_eq_false_iff] at h
      have hne : k' ≠ k := by
        intro he
        subst he
        simp at h
      simp only [dictInsert, if_neg hne, List.cons_append, List.cons.injEq, true_and]
      exact ih h.2

theorem foldl_dictInsert_append (raw : List (String × Json)) :
    ∀ acc : List (String × Json),
      (∀ p ∈ raw, ((acc.map Prod.fst).contains p.1) = false) →
      keysOk (raw.map Prod.fst) = true →
      raw.foldl (fun a q => dictInsert a q.1 q.2) acc = acc ++ raw := by
  induction raw with
  | nil => intro acc _ _; simp
  | cons p t ih =>
      intro acc hdisj hok
      obtain ⟨k, v⟩ := p
      simp only [List.map_cons, keysOk, Bool.and_eq_true, Bool.not_eq_true'] at hok
      simp only [List.foldl_cons]
      rw [dictInsert_of_not_mem acc k v (hdisj (k, v) (by simp))]
      have hstep := ih (acc ++ [(k, v)]) ?_ hok.2
      · rw [hstep, List.append_assoc]
        rfl
      · intro q hq
        have h1 := hdisj q (List.mem_cons_of_mem _ hq)
        rw [List.contains_eq_any_beq] at h1
        rw [List.map_append, List.contains_eq_any_beq, List.any_append, h1, Bool.false_or]
        simp only [List.map_cons, List.map_nil, List.any_cons, List.any_nil, Bool.or_false]
        have hmem : q.1 ∈ t.map Prod.fst := List.mem_map_of_mem Prod.fst hq
        rcases Bool.eq_false_or_eq_true (q.1 == k) with ht | hf
        · exfalso
          have heq : q.1 = k := by simpa using ht
          rw [List.contains_eq_any_beq] at hok
          have h2 := hok.1
          simp only [List.any_eq_false] at h2
          have h3 := h2 _ hmem
          rw [heq] at h3
          simp at h3
        · exact hf

theorem dedupFields_of_keysOk (raw : List (String × Json))
    (h : keysOk (raw.map Prod.fst) = true) : dedupFields raw = raw := by
  have := foldl_dictInsert_append raw [] (by intro p _; rfl) h
  simpa [dedupFields] using this

theorem char_not_surrogate (c : Char) : c.toNat < 55296 ∨ 57343 < c.toNat := by
  have h := c.valid
  have he : c.toNat = c.val.toNat := rfl
  rcases h with h | h
  · left; omega
  · right; omega

theorem char_toNat_lt (c : Char) : c.toNat < 1114112 := by
  have h := c.valid
  have he : c.toNat = c.val.toNat := rfl
  rcases h with h | h <;> omega

theorem hexVal_hexDigitChar : ∀ d : Nat, d < 16 → hexVal (hexDigitChar d) = some d := by
  have h : ∀ d : Fin 16, hexVal (hexDigitChar d) = some d := by decide
  intro d hd
  exact h ⟨d, hd⟩

theorem parseHex4_hex4 (n : Nat) (hn : n < 65536) (r : List Char) :
    parseHex4 (hex4 n ++ r) = some (n, r) := by
  have h1 := hexVal_hexDigitChar (n / 4096 % 16) (Nat.mod_lt _ (by norm_num))
  have h2 := hexVal_hexDigitChar (n / 256 % 16) (Nat.mod_lt _ (by norm_num))
  have h3 := hexVal_hexDigitChar (n / 16 % 16) (Nat.mod_lt _ (by norm_num))
  have h4 := hexVal_hexDigitChar (n % 16) (Nat.mod_lt _ (by norm_num))
  simp only [hex4, List.cons_append, List.nil_append, parseHex4, h1, h2, h3, h4]
  have : ((n / 4096 % 16 * 16 + n / 256 % 16) * 16 + n / 16 % 16) * 16 + n % 16 = n := by
    omega
  rw [this]

theorem parseStrAux_lit (fuel : Nat) (c : Char) (tail : List Char)
    (h1 : ¬c = quoteChar) (h2 : ¬c = backslashChar) (h3 : ¬c.toNat < 32) :
    parseStrAux (fuel + 1) (c :: tail) =
      (parseStrAux fuel tail).map (fun p => (c :: p.1, p.2)) := by
  simp only [parseStrAux, if_neg h1, if_neg h2, if_neg h3]

theorem parseStrAux_u (fuel : Nat) (n : Nat) (tail : List Char) (h : n < 65536)
    (hs1 : ¬(55296 ≤ n ∧ n < 56320)) (hs2 : ¬(56320 ≤ n ∧ n < 57344)) :
    parseStrAux (fuel + 1) (backslashChar :: 'u' :: (hex4 n ++ tail)) =
      (parseStrAux fuel tail).map (fun p => (Char.ofNat n :: p.1, p.2)) := by
  rw [parseStrAux, if_neg (by decide : ¬(backslashChar = quoteChar)),
    if_pos (rfl : backslashChar = backslashChar)]
  simp only [if_neg (by decide : ¬('u' = quoteChar)),
    if_neg (by decide : ¬('u' = backslashChar)),
    if_neg (by decide : ¬('u' = '/')), if_neg (by decide : ¬('u' = 'b')),
    if_neg (by decide : ¬('u' = 'f')), if_neg (by decide : ¬('u' = 'n')),
    if_neg (by decide : ¬('u' = 'r')), if_neg (by decide : ¬('u' = 't')),
    if_pos (rfl : 'u' = 'u')]
  rw [parseHex4_hex4 n h tail]
  simp only [if_neg hs1, if_neg hs2]
  simp

theorem parseStrAux_surrogatePair (fuel : Nat) (hi lo : Nat) (tail : List Char)
    (hhi : 55296 ≤ hi ∧ hi < 56320) (hlo : 56320 ≤ lo ∧ lo < 57344) :
    parseStrAux (fuel + 1)
        (backslashChar :: 'u' ::
          (hex4 hi ++ (backslashChar :: 'u' :: (hex4 lo ++ tail)))) =
      (parseStrAux fuel tail).map
        (fun p => (Char.ofNat (65536 + (hi - 55296) * 1024 + (lo - 56320)) :: p.1, p.2)) := by
  rw [parseStrAux, if_neg (by decide : ¬(backslashChar = quoteChar)),
    if_pos (rfl : backslashChar = backslashChar)]
  simp only [if_neg (by decide : ¬('u' = quoteChar)),
    if_neg (by decide : ¬('u' = backslashChar)),
    if_neg (by decide : ¬('u' = '/')), if_neg (by decide : ¬('u' = 'b')),
    if_neg (by decide : ¬('u' = 'f')), if_neg (by decide : ¬('u' = 'n')),
    if_neg (by decide : ¬('u' = 'r')), if_neg (by decide : ¬('u' = 't')),
    if_pos (rfl : 'u' = 'u')]
  rw [parseHex4_hex4 hi (by omega) (backslashChar :: 'u' :: (hex4 lo ++ tail))]
  simp only [if_pos hhi,
    if_pos (⟨rfl, rfl⟩ : backslashChar = backslashChar ∧ 'u' = 'u')]
  rw [parseHex4_hex4 lo (by omega) tail]
  simp only [if_pos hlo]
  simp

theorem parseStrAux_step (c : Char) (tail : List Char) (fuel : Nat) :
    parseStrAux (fuel + 1) (escChar c ++ tail) =
      (parseStrAux fuel tail).map (fun p => (c :: p.1, p.2)) := by
  by_cases h1 : c = quoteChar
  · subst h1; rfl
  by_cases h2 : c = backslashChar
  · subst h2; rfl
  by_cases h3 : c.toNat = 10
  · have hc : c = newlineChar := by
      have h := Char.ofNat_toNat c
      rw [h3] at h
      exact h.symm
    subst hc; rfl
  by_cases h4 : c.toNat = 9
  · have hc : c = Char.ofNat 9 := by
      have h := Char.ofNat_toNat c
      rw [h4] at h
      exact h.symm
    subst hc; rfl
  by_cases h5 : c.toNat = 13
  · have hc : c = Char.ofNat 13 := by
      have h := Char.ofNat_toNat c
      rw [h5] at h
      exact h.symm
    subst hc; rfl
  by_cases h6 : c.toNat = 8
  · have hc : c = Char.ofNat 8 := by
      have h := Char.ofNat_toNat c
      rw [h6] at h
      exact h.symm
    subst hc; rfl
  by_cases h7 : c.toNat = 12
  · have hc : c = Char.ofNat 12 := by
      have h := Char.ofNat_toNat c
      rw [h7] at h
      exact h.symm
    subst hc; rfl
  by_cases h8 : 32 ≤ c.toNat ∧ c.toNat ≤ 126
  · have e1 : escChar c = [c] := by
      simp only [escChar, if_neg h1, if_neg h2, if_neg h3, if_neg h4, if_neg h5,
        if_neg h6, if_neg h7, if_pos h8]
    rw [e1, List.cons_append, List.nil_append,
      parseStrAux_lit fuel c tail h1 h2 (by omega)]
  by_cases h9 : c.toNat < 65536
  · have e1 : escChar c = backslashChar :: 'u' :: hex4 c.toNat := by
      simp only [escChar, if_neg h1, if_neg h2, if_neg h3, if_neg h4, if_neg h5,
        if_neg h6, if_neg h7, if_neg h8, if_pos h9]
    have hsur := char_not_surrogate c
    rw [e1, List.cons_append, List.cons_append,
      parseStrAux_u fuel c.toNat tail h9 (by omega) (by omega), Char.ofNat_toNat]
  · have e1 : escChar c =
        backslashChar :: 'u' :: hex4 (55296 + (c.toNat - 65536) / 1024) ++
          backslashChar :: 'u' :: hex4 (56320 + (c.toNat - 65536) % 1024) := by
      simp only [escChar, if_neg h1, if_neg h2, if_neg h3, if_neg h4, if_neg h5,
        if_neg h6, if_neg h7, if_neg h8, if_neg h9]
    have hub := char_toNat_lt c
    have hdiv : (c.toNat - 65536) / 1024 < 1024 := by omega
    have hmod : (c.toNat - 65536) % 1024 < 1024 :=
      Nat.mod_lt _ (by norm_num)
    rw [e1]
    rw [show backslashChar :: 'u' :: hex4 (55296 + (c.toNat - 65536) / 1024) ++
          backslashChar :: 'u' :: hex4 (56320 + (c.toNat - 65536) % 1024) ++ tail =
        backslashChar :: 'u' ::
          (hex4 (55296 + (c.toNat - 65536) / 1024) ++
            (backslashChar :: 'u' :: (hex4 (56320 + (c.toNat - 65536) % 1024) ++ tail)))
      from by simp]
    rw [parseStrAux_surrogatePair fuel _ _ tail (by omega) (by omega)]
    have harith : 65536 + (55296 + (c.toNat - 65536) / 1024 - 55296) * 1024 +
        (56320 + (c.toNat - 65536) % 1024 - 56320) = c.toNat := by omega
    rw [harith, Char.ofNat_toNat]

theorem parseStrAux_escList :
    ∀ (cs : List Char) (fuel : Nat) (rest : List Char), cs.length < fuel →
      parseStrAux fuel (escList cs ++ quoteChar :: rest) = some (cs, rest) := by
  intro cs
  induction cs with
  | nil =>
      intro fuel rest hf
      match fuel, hf with
      | fuel + 1, _ => rfl
  | cons c cs ih =>
      intro fuel rest hf
      match fuel, hf with
      | fuel + 1, hf =>
        have hshape : escList (c :: cs) ++ quoteChar :: rest =
            escChar c ++ (escList cs ++ quoteChar :: rest) := by
          simp [escList]
        rw [hshape, parseStrAux_step]
        rw [ih fuel rest (by simpa using Nat.lt_of_succ_lt_succ hf)]
        rfl

theorem hexDigitChar_toNat : ∀ d : Nat, d < 10 → (hexDigitChar d).toNat = 48 + d := by
  have h : ∀ d : Fin 10, (hexDigitChar d).toNat = 48 + d := by decide
  intro d hd
  exact h ⟨d, hd⟩

theorem isDigitChar_hexDigitChar : ∀ d : Nat, d < 10 → isDigitChar (hexDigitChar d) = true := by
  have h : ∀ d : Fin 10, isDigitChar (hexDigitChar d) = true := by decide
  intro d hd
  exact h ⟨d, hd⟩

theorem digitsAux_ne_nil (fuel n : Nat) (h : n < fuel) : digitsAux fuel n ≠ [] := by
  match fuel, h with
  | fuel + 1, _ =>
    by_cases h10 : n < 10
    · simp [digitsAux, h10]
    · simp only [digitsAux, if_neg h10]
      intro hcontra
      exact absurd (List.append_eq_nil.mp hcontra).2 (by simp)

theorem digitsAux_all_digits (fuel : Nat) :
    ∀ n, n < fuel → ∀ c ∈ digitsAux fuel n, isDigitChar c = true := by
  induction fuel with
  | zero => intro n h; omega
  | succ fuel ih =>
      intro n h c hc
      by_cases h10 : n < 10
      · simp only [digitsAux, if_pos h10, List.mem_singleton] at hc
        subst hc
        exact isDigitChar_hexDigitChar n h10
      · simp only [digitsAux, if_neg h10, List.mem_append, List.mem_singleton] at hc
        rcases hc with hc | hc
        · exact ih (n / 10) (by omega) c hc
        · subst hc
          exact isDigitChar_hexDigitChar (n % 10) (by omega)

/-- `digitsVal` computation with an accumulator seed. -/
theorem digitsVal_foldl_seed :
    ∀ (ds : List Char) (v : Nat),
      ds.foldl (fun a c => a * 10 + (c.toNat - 48)) v =
        v * 10 ^ ds.length + digitsVal ds := by
  intro ds
  induction ds with
  | nil => intro v; simp [digitsVal]
  | cons c ds ih =>
      intro v
      simp only [List.foldl_cons, digitsVal]
      rw [ih (v * 10 + (c.toNat - 48)), ih (0 * 10 + (c.toNat - 48))]
      simp only [List.length_cons]
      ring

theorem digitsVal_append (a b : List Char) :
    digitsVal (a ++ b) = digitsVal a * 10 ^ b.length + digitsVal b := by
  unfold digitsVal
  rw [List.foldl_append, digitsVal_foldl_seed b]
  rfl

theorem digitsVal_digitsAux (fuel : Nat) :
    ∀ n, n < fuel → digitsVal (digitsAux fuel n) = n := by
  induction fuel with
  | zero => intro n h; omega
  | succ fuel ih =>
      intro n h
      by_cases h10 : n < 10
      · simp only [digitsAux, if_pos h10, digitsVal, List.foldl_cons, List.foldl_nil]
        rw [hexDigitChar_toNat n h10]
        omega
      · simp only [digitsAux, if_neg h10]
        rw [digitsVal_append, ih (n / 10) (by omega)]
        have hm : digitsVal [hexDigitChar (n % 10)] = n % 10 := by
          simp only [digitsVal, List.foldl_cons, List.foldl_nil]
          rw [hexDigitChar_toNat (n % 10) (by omega)]
          omega
        rw [hm]
        simp only [List.length_singleton]
        omega

theorem digitsAux_head_ne_zero (fuel : Nat) :
    ∀ n, n < fuel → 1 ≤ n → (digitsAux fuel n).head? ≠ some '0' := by
  induction fuel with
  | zero => intro n h; omega
  | succ fuel ih =>
      intro n h h1
      by_cases h10 : n < 10
      · simp only [digitsAux, if_pos h10, List.head?_cons]
        intro hc
        have hd := hexDigitChar_toNat n h10
        have : (hexDigitChar n) = '0' := by injection hc
        rw [this] at hd
        have : ('0').toNat = 48 := rfl
        omega
      · simp only [digitsAux, if_neg h10]
        rw [List.head?_append]
        have hne := digitsAux_ne_nil fuel (n / 10) (by omega)
        have hsome : (digitsAux fuel (n / 10)).head? ≠ none := by
          intro hc
          exact hne (List.head?_eq_none_iff.mp hc)
        intro hc
        rcases ho : (digitsAux fuel (n / 10)).head? with _ | c
        · exact hsome ho
        · rw [ho] at hc
          simp only [Option.or_some] at hc
          have := ih (n / 10) (by omega) (by omega)
          rw [ho] at this
          exact this hc

/-- No digit at the head of the remaining input. -/
def headNotDigit : List Char → Prop
  | [] => True
  | c :: _ => isDigitChar c = false

/-- What may legally follow a rendered number so that the number parser
stops exactly at its end: not a digit, not a decimal point, not an
exponent marker. -/
def numBoundary : List Char → Prop
  | [] => True
  | c :: _ => isDigitChar c = false ∧ c ≠ '.' ∧ c ≠ 'e' ∧ c ≠ 'E'

theorem spanDigits_append (ds : List Char) (r : List Char)
    (hds : ∀ c ∈ ds, isDigitChar c = true) (hr : headNotDigit r) :
    spanDigits (ds ++ r) = (ds, r) := by
  induction ds with
  | nil =>
      simp only [List.nil_append, spanDigits]
      cases r with
      | nil => rfl
      | cons c t =>
          simp only [headNotDigit] at hr
          simp [List.takeWhile_cons, List.dropWhile_cons, hr]
  | cons c ds ih =>
      have hc := hds c (by simp)
      have hrest := ih (fun x hx => hds x (by simp [hx]))
      simp only [spanDigits] at hrest ⊢
      simp only [List.cons_append, List.takeWhile_cons, List.dropWhile_cons, hc,
        if_pos rfl]
      simp only [Prod.mk.injEq] at hrest
      simp [hrest.1, hrest.2]

theorem natToDigits_all_digits (n : Nat) : ∀ c ∈ natToDigits n, isDigitChar c = true :=
  digitsAux_all_digits (n + 1) n (by omega)

theorem natToDigits_ne_nil (n : Nat) : natToDigits n ≠ [] :=
  digitsAux_ne_nil (n + 1) n (by omega)

theorem digitsVal_natToDigits (n : Nat) : digitsVal (natToDigits n) = n :=
  digitsVal_digitsAux (n + 1) n (by omega)

theorem natToDigits_small (n : Nat) (h : n < 10) : natToDigits n = [hexDigitChar n] := by
  simp [natToDigits, digitsAux, h]

theorem natToDigits_good (n : Nat) (h : 1 < (natToDigits n).length) :
    (natToDigits n).head? ≠ some '0' := by
  by_cases h10 : n < 10
  · rw [natToDigits_small n h10] at h
    simp at h
  · exact digitsAux_head_ne_zero (n + 1) n (by omega) (by omega)

theorem isDigitChar_ne (c : Char) (h : isDigitChar c = true) :
    c ≠ '-' ∧ c ≠ '.' ∧ c ≠ 'e' ∧ c ≠ 'E' := by
  simp only [isDigitChar, Bool.and_eq_true, decide_eq_true_eq] at h
  refine ⟨?_, ?_, ?_, ?_⟩ <;> intro hc <;> subst hc <;> revert h <;> decide

theorem parseIntPart_prefix (ds r : List Char)
    (hds : ∀ c ∈ ds, isDigitChar c = true) (hne : ds ≠ [])
    (hgood : 1 < ds.length → ds.head? ≠ some '0') (hr : headNotDigit r) :
    parseIntPart (ds ++ r) = some (digitsVal ds, r) := by
  simp only [parseIntPart, spanDigits_append ds r hds hr]
  cases ds with
  | nil => exact absurd rfl hne
  | cons c t =>
      by_cases hlen : 1 < (c :: t).length
      · have := hgood hlen
        rw [if_neg]
        intro hcontra
        exact this (by simpa using hcontra.2)
      · rw [if_neg]
        intro hcontra
        exact hlen hcontra.1

theorem digitsVal_replicate_zero (k : Nat) : digitsVal (List.replicate k '0') = 0 := by
  induction k with
  | zero => rfl
  | succ k ih =>
      simp only [List.replicate_succ, digitsVal, List.foldl_cons]
      have h0 : ('0').toNat - 48 = 0 := rfl
      rw [h0]
      simpa [digitsVal] using ih

/-- Core of the number round-trip, integer form: an optional sign, a good
digit string, and a boundary. -/
theorem parseNumber_int_core (sign : Bool) (ds r : List Char)
    (hds : ∀ c ∈ ds, isDigitChar c = true) (hne : ds ≠ [])
    (hgood : 1 < ds.length → ds.head? ≠ some '0') (hr : numBoundary r) :
    parseNumber ((if sign then ['-'] else []) ++ ds ++ r) =
      some (Json.num (if sign then -(digitsVal ds : Int) else (digitsVal ds : Int)) 0, r) := by
  have hrd : headNotDigit r := by
    cases r with
    | nil => trivial
    | cons c t => exact hr.1
  have hint := parseIntPart_prefix ds r hds hne hgood hrd
  have hfrac : parseFrac r = (0, 0, r) := by
    cases r with
    | nil => rfl
    | cons c t =>
        obtain ⟨_, hdot, _, _⟩ := hr
        simp [parseFrac, hdot]
  have hexp : parseExp r = (0, r) := by
    cases r with
    | nil => rfl
    | cons c t =>
        obtain ⟨_, _, he1, he2⟩ := hr
        simp [parseExp, he1, he2]
  obtain ⟨c, t, hds_eq⟩ : ∃ c t, ds = c :: t := by
    cases ds with
    | nil => exact absurd rfl hne
    | cons c t => exact ⟨c, t, rfl⟩
  have hcd := hds c (by rw [hds_eq]; simp)
  have hdash := (isDigitChar_ne c hcd).1
  subst hds_eq
  simp only [List.cons_append, List.append_assoc] at hint ⊢
  cases sign with
  | false =>
      simp only [Bool.false_eq_true, if_false, List.nil_append, parseNumber,
        if_neg hdash, hint, hfrac, hexp]
      simp
  | true =>
      simp only [eq_self_iff_true, if_true, List.cons_append, List.nil_append,
        parseNumber, if_pos (rfl : '-' = '-'), hint, hfrac, hexp]
      simp

/-- Core of the number round-trip, fractional form. -/
theorem parseNumber_frac_core (sign : Bool) (ip fp r : List Char)
    (hip : ∀ c ∈ ip, isDigitChar c = true) (hipne : ip ≠ [])
    (hgood : 1 < ip.length → ip.head? ≠ some '0')
    (hfp : ∀ c ∈ fp, isDigitChar c = true) (hfpne : fp ≠ [])
    (hr : numBoundary r) :
    parseNumber ((if sign then ['-'] else []) ++ ip ++ '.' :: fp ++ r) =
      some (Json.num
        (if sign then -((digitsVal ip * 10 ^ fp.length + digitsVal fp : Nat) : Int)
         else ((digitsVal ip * 10 ^ fp.length + digitsVal fp : Nat) : Int))
        fp.length, r) := by
  have hrd : headNotDigit r := by
    cases r with
    | nil => trivial
    | cons c t => exact hr.1
  have hint := parseIntPart_prefix ip ('.' :: (fp ++ r)) hip hipne hgood
    (by simp only [headNotDigit]; decide)
  have hspan := spanDigits_append fp r hfp hrd
  obtain ⟨d, u, hfp_eq⟩ : ∃ d u, fp = d :: u := by
    cases fp with
    | nil => exact absurd rfl hfpne
    | cons d u => exact ⟨d, u, rfl⟩
  have hfplen : fp.length ≠ 0 := by rw [hfp_eq]; simp
  have hfrac : parseFrac ('.' :: (fp ++ r)) = (digitsVal fp, fp.length, r) := by
    simp only [parseFrac, if_pos (rfl : '.' = '.')]
    rw [hfp_eq] at hspan ⊢
    simp only [List.cons_append] at hspan
    simp [hspan]
  have hexp : parseExp r = (0, r) := by
    cases r with
    | nil => rfl
    | cons c t =>
        obtain ⟨_, _, he1, he2⟩ := hr
        simp [parseExp, he1, he2]
  have h1 : ¬(fp.length = 0 ∧ (0 : Int) = 0) := by simp [hfplen]
  have h2 : ¬((0 : Int) ≤ (0 : Int) - (fp.length : Int)) := by
    have : 0 < fp.length := Nat.pos_of_ne_zero hfplen
    omega
  have h3 : (-((0 : Int) - (fp.length : Int))).toNat = fp.length := by omega
  obtain ⟨c, t, hip_eq⟩ : ∃ c t, ip = c :: t := by
    cases ip with
    | nil => exact absurd rfl hipne
    | cons c t => exact ⟨c, t, rfl⟩
  have hcd := hip c (by rw [hip_eq]; simp)
  have hdash := (isDigitChar_ne c hcd).1
  subst hip_eq
  simp only [List.cons_append, List.append_assoc] at hint ⊢
  cases sign with
  | false =>
      simp only [Bool.false_eq_true, if_false, List.nil_append, parseNumber,
        if_neg hdash, hint, hfrac, hexp]
      rw [if_neg (by simp [hfplen])]
      rw [if_neg h2, h3]
  | true =>
      simp only [eq_self_iff_true, if_true, List.cons_append, List.nil_append,
        parseNumber, if_pos (rfl : '-' = '-'), hint, hfrac, hexp]
      rw [if_neg (by simp [hfplen])]
      rw [if_neg h2, h3]

theorem head?_take_pos (l : List Char) (k : Nat) (hk : 1 ≤ k) :
    (l.take k).head? = l.head? := by
  cases l with
  | nil => simp
  | cons c t =>
      match k, hk with
      | k + 1, _ => simp

theorem parseNumber_renderNum (m : Int) (e : Nat) (r : List Char) (hr : numBoundary r) :
    parseNumber (renderNum m e ++ r) = some (Json.num m e, r) := by
  by_cases he : e = 0
  · subst he
    by_cases hm : m < 0
    · have h := parseNumber_int_core true (natToDigits m.natAbs) r
        (natToDigits_all_digits _) (natToDigits_ne_nil _) (natToDigits_good _) hr
      simp only [eq_self_iff_true, if_true, digitsVal_natToDigits] at h
      simp only [renderNum, eq_self_iff_true, if_true, if_pos hm]
      rw [show -(m.natAbs : Int) = m from by omega] at h
      exact h
    · have h := parseNumber_int_core false (natToDigits m.natAbs) r
        (natToDigits_all_digits _) (natToDigits_ne_nil _) (natToDigits_good _) hr
      simp only [Bool.false_eq_true, if_false, List.nil_append,
        digitsVal_natToDigits] at h
      simp only [renderNum, eq_self_iff_true, if_true, if_neg hm, List.nil_append]
      rw [show ((m.natAbs : Nat) : Int) = m from by omega] at h
      exact h
  · have hds_d := natToDigits_all_digits m.natAbs
    have hds_ne := natToDigits_ne_nil m.natAbs
    set ds := natToDigits m.natAbs with hds_def
    set padded := leftPadZeros (e + 1) ds with hpad_def
    have hpad_len : padded.length = (e + 1 - ds.length) + ds.length := by
      rw [hpad_def, leftPadZeros, List.length_append, List.length_replicate]
    have hpad_ge : e + 1 ≤ padded.length := by omega
    have hpad_d : ∀ c ∈ padded, isDigitChar c = true := by
      intro c hc
      rw [hpad_def, leftPadZeros, List.mem_append] at hc
      rcases hc with hc | hc
      · rw [List.eq_of_mem_replicate hc]
        decide
      · exact hds_d c hc
    set ip := padded.take (padded.length - e) with hip_def
    set fp := padded.drop (padded.length - e) with hfp_def
    have hip_len : ip.length = padded.length - e := by
      rw [hip_def, List.length_take]
      omega
    have hfp_len : fp.length = e := by
      rw [hfp_def, List.length_drop]
      omega
    have hip_ne : ip ≠ [] := by
      intro hc
      have := hip_len
      rw [hc] at this
      simp at this
      omega
    have hfp_ne : fp ≠ [] := by
      intro hc
      have := hfp_len
      rw [hc] at this
      simp at this
      omega
    have hip_d : ∀ c ∈ ip, isDigitChar c = true := fun c hc =>
      hpad_d c (List.mem_of_mem_take hc)
    have hfp_d : ∀ c ∈ fp, isDigitChar c = true := fun c hc =>
      hpad_d c (List.mem_of_mem_drop hc)
    have hip_good : 1 < ip.length → ip.head? ≠ some '0' := by
      intro hlen
      rw [hip_len] at hlen
      have hds_long : e + 1 < ds.length := by omega
      have hpad_eq : padded = ds := by
        rw [hpad_def, leftPadZeros, show e + 1 - ds.length = 0 from by omega]
        simp
      have hlen2 : 1 ≤ padded.length - e := by omega
      rw [hip_def, head?_take_pos padded (padded.length - e) hlen2, hpad_eq]
      exact natToDigits_good m.natAbs (by rw [← hds_def]; omega)
    have hsplit : padded = ip ++ fp := (List.take_append_drop _ padded).symm
    have hval : digitsVal ip * 10 ^ e + digitsVal fp = m.natAbs := by
      have h1 : digitsVal padded = digitsVal ip * 10 ^ fp.length + digitsVal fp := by
        rw [hsplit] at *
        exact digitsVal_append ip fp
      have h2 : digitsVal padded = digitsVal ds := by
        rw [hpad_def, leftPadZeros, digitsVal_append, digitsVal_replicate_zero]
        simp
      rw [hfp_len] at h1
      rw [hds_def, digitsVal_natToDigits] at h2
      omega
    by_cases hm : m < 0
    · have h := parseNumber_frac_core true ip fp r hip_d hip_ne hip_good hfp_d hfp_ne hr
      simp only [eq_self_iff_true, if_true, hfp_len, hval] at h
      rw [show -((m.natAbs : Nat) : Int) = m from by omega] at h
      simp only [renderNum, if_neg he, if_pos hm]
      simp only [List.cons_append, List.append_assoc, List.nil_append] at h ⊢
      exact h
    · have h := parseNumber_frac_core false ip fp r hip_d hip_ne hip_good hfp_d hfp_ne hr
      simp only [Bool.false_eq_true, if_false, List.nil_append, hfp_len, hval] at h
      rw [show ((m.natAbs : Nat) : Int) = m from by omega] at h
      simp only [renderNum, if_neg he, if_neg hm, List.nil_append]
      simp only [List.cons_append, List.append_assoc, List.nil_append] at h ⊢
      exact h

theorem skipWs_cons_ws (c : Char) (l : List Char) (h : isWsChar c = true) :
    skipWs (c :: l) = skipWs l := by
  simp [skipWs, List.dropWhile_cons, h]

theorem skipWs_cons_not_ws (c : Char) (l : List Char) (h : isWsChar c = false) :
    skipWs (c :: l) = c :: l := by
  simp [skipWs, List.dropWhile_cons, h]

theorem skipWs_spaces (n : Nat) (l : List Char) :
    skipWs (spacesChars n ++ l) = skipWs l := by
  induction n with
  | zero => simp [spacesChars]
  | succ n ih =>
      simp only [spacesChars, List.replicate_succ, List.cons_append]
      rw [skipWs_cons_ws ' ' _ (by decide)]
      exact ih

theorem isDigitChar_not_ws (c : Char) (h : isDigitChar c = true) : isWsChar c = false := by
  simp only [isDigitChar, Bool.and_eq_true, decide_eq_true_eq] at h
  simp only [isWsChar]
  have h1 : (c.toNat = 32) = False := by simp; omega
  have h2 : (c.toNat = 9) = False := by simp; omega
  have h3 : (c.toNat = 10) = False := by simp; omega
  have h4 : (c.toNat = 13) = False := by simp; omega
  simp [h1, h2, h3, h4]

theorem isDigitChar_ne_brackets (c : Char) (h : isDigitChar c = true) :
    c ≠ ']' ∧ c ≠ rbraceChar ∧ c ≠ quoteChar ∧ c ≠ 'n' ∧ c ≠ 't' ∧ c ≠ 'f' ∧
      c ≠ '[' ∧ c ≠ lbraceChar := by
  simp only [isDigitChar, Bool.and_eq_true, decide_eq_true_eq] at h
  refine ⟨?_, ?_, ?_, ?_, ?_, ?_, ?_, ?_⟩ <;> intro hc <;> subst hc <;> revert h <;> decide

/-- Head of a rendered number: the minus sign or a digit. -/
theorem renderNum_head (m : Int) (e : Nat) :
    ∃ c t, renderNum m e = c :: t ∧ (c = '-' ∨ isDigitChar c = true) := by
  by_cases he : e = 0
  · subst he
    by_cases hm : m < 0
    · exact ⟨'-', natToDigits m.natAbs, by simp [renderNum, hm], Or.inl rfl⟩
    · obtain ⟨c, t, hct⟩ : ∃ c t, natToDigits m.natAbs = c :: t := by
        cases hd : natToDigits m.natAbs with
        | nil => exact absurd hd (natToDigits_ne_nil _)
        | cons c t => exact ⟨c, t, rfl⟩
      refine ⟨c, t, by simp [renderNum, hm, hct], Or.inr ?_⟩
      exact natToDigits_all_digits m.natAbs c (by rw [hct]; simp)
  · have hple : e + 1 ≤ (leftPadZeros (e + 1) (natToDigits m.natAbs)).length := by
      rw [leftPadZeros, List.length_append, List.length_replicate]
      omega
    set padded := leftPadZeros (e + 1) (natToDigits m.natAbs) with hpad
    obtain ⟨c, t, hct⟩ : ∃ c t, padded.take (padded.length - e) = c :: t := by
      cases hd : padded.take (padded.length - e) with
      | nil =>
          exfalso
          have := congrArg List.length hd
          rw [List.length_take] at this
          simp at this
          omega
      | cons c t => exact ⟨c, t, rfl⟩
    by_cases hm : m < 0
    · refine ⟨'-', padded.take (padded.length - e) ++ '.' :: padded.drop (padded.length - e),
        ?_, Or.inl rfl⟩
      simp [renderNum, if_neg he, hm, ← hpad]
    · refine ⟨c, t ++ '.' :: padded.drop (padded.length - e), ?_, Or.inr ?_⟩
      · simp [renderNum, if_neg he, hm, ← hpad, hct]
      · have hmem : c ∈ padded := List.mem_of_mem_take (by rw [hct]; simp)
        rw [hpad, leftPadZeros, List.mem_append] at hmem
        rcases hmem with hmem | hmem
        · rw [List.eq_of_mem_replicate hmem]; decide
        · exact natToDigits_all_digits m.natAbs c hmem

/-- Head of any rendered JSON value: a non-whitespace character that is
neither a closing bracket nor a closing brace. -/
theorem renderJ_head (lvl : Nat) (x : Json) :
    ∃ c t, renderJ lvl x = c :: t ∧ isWsChar c = false ∧ c ≠ ']' ∧ c ≠ rbraceChar := by
  cases x with
  | null => refine ⟨'n', _, rfl, ?_, ?_, ?_⟩ <;> decide
  | bool b => cases b with
    | true => refine ⟨'t', _, rfl, ?_, ?_, ?_⟩ <;> decide
    | false => refine ⟨'f', _, rfl, ?_, ?_, ?_⟩ <;> decide
  | num m e =>
      obtain ⟨c, t, hct, hc⟩ := renderNum_head m e
      refine ⟨c, t, hct, ?_, ?_, ?_⟩
      · rcases hc with rfl | hc
        · decide
        · exact isDigitChar_not_ws c hc
      · rcases hc with rfl | hc
        · decide
        · exact (isDigitChar_ne_brackets c hc).1
      · rcases hc with rfl | hc
        · decide
        · exact (isDigitChar_ne_brackets c hc).2.1
  | str s => refine ⟨quoteChar, _, rfl, ?_, ?_, ?_⟩ <;> decide
  | arr xs => cases xs with
    | nil => refine ⟨'[', _, rfl, ?_, ?_, ?_⟩ <;> decide
    | cons y ys => refine ⟨'[', _, rfl, ?_, ?_, ?_⟩ <;> decide
  | obj fs => cases fs with
    | nil => refine ⟨lbraceChar, _, rfl, ?_, ?_, ?_⟩ <;> decide
    | cons f fs => refine ⟨lbraceChar, _, rfl, ?_, ?_, ?_⟩ <;> decide

theorem skipWs_renderJ (lvl : Nat) (x : Json) (r : List Char) :
    skipWs (renderJ lvl x ++ r) = renderJ lvl x ++ r := by
  obtain ⟨c, t, hct, hws, _, _⟩ := renderJ_head lvl x
  rw [hct, List.cons_append, skipWs_cons_not_ws c _ hws]

theorem escList_length_ge (cs : List Char) : cs.length ≤ (escList cs).length := by
  induction cs with
  | nil => simp [escList]
  | cons c cs ih =>
      simp only [escList, List.length_append, List.length_cons]
      have : 1 ≤ (escChar c).length := by
        simp only [escChar]
        repeat' split
        all_goals simp
      omega

theorem dropWhile_idem (p : Char → Bool) (l : List Char) :
    List.dropWhile p (List.dropWhile p l) = List.dropWhile p l := by
  induction l with
  | nil => rfl
  | cons c t ih =>
      by_cases h : p c
      · simp [List.dropWhile_cons, h, ih]
      · simp [List.dropWhile_cons, h]

theorem parseTok_skipWs (fuel : Nat) (input : List Char) :
    parseTok (fuel + 1) input = parseTok (fuel + 1) (skipWs input) := by
  conv_rhs => rw [parseTok]
  rw [parseTok]
  rw [show skipWs (skipWs input) = skipWs input from dropWhile_idem isWsChar input]

theorem string_mk_data (s : String) : String.mk s.data = s := by
  cases s
  rfl

theorem parseTok_skipWs_all (fuel : Nat) (input : List Char) :
    parseTok fuel input = parseTok fuel (skipWs input) := by
  cases fuel with
  | zero => rfl
  | succ f => exact parseTok_skipWs f input

theorem numBoundary_comma (l : List Char) : numBoundary (',' :: l) :=
  ⟨by decide, by decide, by decide, by decide⟩

theorem numBoundary_newline (l : List Char) : numBoundary (newlineChar :: l) :=
  ⟨by decide, by decide, by decide, by decide⟩

theorem skipWs_newline (l : List Char) : skipWs (newlineChar :: l) = skipWs l :=
  skipWs_cons_ws _ _ (by decide)

theorem skipWs_space (l : List Char) : skipWs (' ' :: l) = skipWs l :=
  skipWs_cons_ws _ _ (by decide)

theorem skipWs_comma (l : List Char) : skipWs (',' :: l) = ',' :: l :=
  skipWs_cons_not_ws _ _ (by decide)

theorem skipWs_colon (l : List Char) : skipWs (':' :: l) = ':' :: l :=
  skipWs_cons_not_ws _ _ (by decide)

theorem skipWs_rbracket (l : List Char) : skipWs (']' :: l) = ']' :: l :=
  skipWs_cons_not_ws _ _ (by decide)

theorem skipWs_rbrace (l : List Char) : skipWs (rbraceChar :: l) = rbraceChar :: l :=
  skipWs_cons_not_ws _ _ (by decide)

theorem skipWs_quote (l : List Char) : skipWs (quoteChar :: l) = quoteChar :: l :=
  skipWs_cons_not_ws _ _ (by decide)

theorem skipWs_lbracket (l : List Char) : skipWs ('[' :: l) = '[' :: l :=
  skipWs_cons_not_ws _ _ (by decide)

theorem skipWs_lbrace (l : List Char) : skipWs (lbraceChar :: l) = lbraceChar :: l :=
  skipWs_cons_not_ws _ _ (by decide)

/-- Round-trip of one rendered JSON value through the parser: for any fuel
at least `Json.size x`, any nesting level, and any following text that
cannot extend a number, parsing the rendering of a well-keyed `x` yields
exactly `x` and the following text. -/
theorem parseTok_renderJ (x : Json) : ∀ (lvl fuel : Nat) (rest : List Char),
    Json.size x ≤ fuel → numBoundary rest → Json.wf x = true →
    parseTok fuel (renderJ lvl x ++ rest) = some (x, rest) := by
  induction x using Json.rec_mem with
  | h0 =>
      intro lvl fuel rest hfuel _ _
      obtain ⟨f, rfl⟩ : ∃ f, fuel = f + 1 := ⟨fuel - 1, by simp [Json.size] at hfuel; omega⟩
      rfl
  | h1 b =>
      intro lvl fuel rest hfuel _ _
      obtain ⟨f, rfl⟩ : ∃ f, fuel = f + 1 := ⟨fuel - 1, by simp [Json.size] at hfuel; omega⟩
      cases b <;> rfl
  | h2 m e =>
      intro lvl fuel rest hfuel hrest _
      obtain ⟨f, rfl⟩ : ∃ f, fuel = f + 1 := ⟨fuel - 1, by simp [Json.size] at hfuel; omega⟩
      obtain ⟨c, t, hct, hc⟩ := renderNum_head m e
      have hnum := parseNumber_renderNum m e rest hrest
      rw [hct, List.cons_append] at hnum
      have hws : isWsChar c = false := by
        rcases hc with rfl | hc
        · decide
        · exact isDigitChar_not_ws c hc
      have hne : ∀ d : Char, d = quoteChar ∨ d = 'n' ∨ d = 't' ∨ d = 'f' ∨ d = '[' ∨
          d = lbraceChar → c ≠ d := by
        intro d hd hcd
        subst hcd
        rcases hc with hc | hc
        · rcases hd with rfl | rfl | rfl | rfl | rfl | rfl <;> revert hc <;> decide
        · obtain ⟨_, _, q1, q2, q3, q4, q5, q6⟩ := isDigitChar_ne_brackets c hc
          rcases hd with rfl | rfl | rfl | rfl | rfl | rfl <;> simp_all
      rw [show renderJ lvl (Json.num m e) = renderNum m e from rfl, hct, List.cons_append,
        parseTok, skipWs_cons_not_ws c _ hws]
      simp only [if_neg (hne quoteChar (by simp)), if_neg (hne 'n' (by simp)),
        if_neg (hne 't' (by simp)), if_neg (hne 'f' (by simp)),
        if_neg (hne '[' (by simp)), if_neg (hne lbraceChar (by simp)),
        if_pos hc, hnum]
  | h3 s =>
      intro lvl fuel rest hfuel hrest _
      obtain ⟨f, rfl⟩ : ∃ f, fuel = f + 1 := ⟨fuel - 1, by simp [Json.size] at hfuel; omega⟩
      have hshape : renderJ lvl (Json.str s) ++ rest =
          quoteChar :: (escList s.data ++ quoteChar :: rest) := by
        simp [renderJ, escString]
      rw [hshape, parseTok, skipWs_quote]
      simp only [if_pos (rfl : quoteChar = quoteChar)]
      have hlen : s.data.length < (escList s.data ++ quoteChar :: rest).length + 1 := by
        have := escList_length_ge s.data
        simp only [List.length_append, List.length_cons]
        omega
      rw [parseStrAux_escList s.data _ rest hlen]
      simp [string_mk_data]
  | h4 xs ih =>
      intro lvl fuel rest hfuel hrest hwf
      simp only [Json.size] at hfuel
      obtain ⟨f, rfl⟩ : ∃ f, fuel = f + 1 := ⟨fuel - 1, by omega⟩
      have hwfl : Json.wfList xs = true := by simpa [Json.wf] using hwf
      have items : ∀ ys, (∀ y ∈ ys, y ∈ xs) → ys ≠ [] → Json.wfList ys = true →
          ∀ (g : Nat) (rest2 : List Char), Json.sizeItems ys ≤ g → numBoundary rest2 →
          parseItems g (newlineChar :: (renderItems lvl ys ++
            (newlineChar :: (spacesChars (lvl * 2) ++ (']' :: rest2))))) =
            some (ys, rest2) := by
        intro ys
        induction ys with
        | nil => intro _ hne; exact absurd rfl hne
        | cons y ys ihy =>
            intro hsub _ hwfy g rest2 hg hb2
            simp only [Json.sizeItems] at hg
            have hsy : 1 ≤ Json.size y := by
              cases y <;> simp [Json.size]
            obtain ⟨g, rfl⟩ : ∃ g', g = g' + 1 := ⟨g - 1, by omega⟩
            simp only [Json.wfList, Bool.and_eq_true] at hwfy
            obtain ⟨c, t, hct, hws, hbr, _⟩ := renderJ_head (lvl + 1) y
            have hsk : ∀ l : List Char, skipWs (c :: l) = c :: l :=
              fun l => skipWs_cons_not_ws c l hws
            cases ys with
            | nil =>
                have hEND : numBoundary (newlineChar :: (spacesChars (lvl * 2) ++
                    (']' :: rest2))) := numBoundary_newline _
                have hin : newlineChar :: (renderItems lvl [y] ++
                    (newlineChar :: (spacesChars (lvl * 2) ++ (']' :: rest2)))) =
                    newlineChar :: (spacesChars ((lvl + 1) * 2) ++
                      (c :: (t ++ (newlineChar :: (spacesChars (lvl * 2) ++
                        (']' :: rest2)))))) := by
                  simp [renderItems, hct]
                have htok : parseTok g (newlineChar :: (spacesChars ((lvl + 1) * 2) ++
                    (c :: (t ++ (newlineChar :: (spacesChars (lvl * 2) ++
                      (']' :: rest2))))))) =
                    some (y, newlineChar :: (spacesChars (lvl * 2) ++ (']' :: rest2))) := by
                  rw [parseTok_skipWs_all, skipWs_newline, skipWs_spaces, hsk,
                    show c :: (t ++ (newlineChar :: (spacesChars (lvl * 2) ++
                      (']' :: rest2)))) = renderJ (lvl + 1) y ++
                      (newlineChar :: (spacesChars (lvl * 2) ++ (']' :: rest2)))
                    from by rw [hct, List.cons_append]]
                  exact ih y (hsub y (by simp)) (lvl + 1) g _ (by omega) hEND hwfy.1
                rw [hin, parseItems]
                simp only [skipWs_newline, skipWs_spaces, hsk, if_neg hbr, htok,
                  skipWs_rbracket, if_neg (by decide : ¬(']' = ',')),
                  if_pos (rfl : ']' = ']')]
                simp
            | cons z zs =>
                have hrec := ihy (fun w hw => hsub w (by simp [hw])) (by simp) hwfy.2 g
                  rest2 (by omega) hb2
                have hTb : numBoundary (',' :: (newlineChar :: (renderItems lvl (z :: zs) ++
                    (newlineChar :: (spacesChars (lvl * 2) ++ (']' :: rest2)))))) :=
                  numBoundary_comma _
                have hin : newlineChar :: (renderItems lvl (y :: z :: zs) ++
                    (newlineChar :: (spacesChars (lvl * 2) ++ (']' :: rest2)))) =
                    newlineChar :: (spacesChars ((lvl + 1) * 2) ++
                      (c :: (t ++ (',' :: (newlineChar :: (renderItems lvl (z :: zs) ++
                        (newlineChar :: (spacesChars (lvl * 2) ++ (']' :: rest2))))))))) := by
                  simp [renderItems, hct]
                have htok : parseTok g (newlineChar :: (spacesChars ((lvl + 1) * 2) ++
                    (c :: (t ++ (',' :: (newlineChar :: (renderItems lvl (z :: zs) ++
                      (newlineChar :: (spacesChars (lvl * 2) ++ (']' :: rest2)))))))))) =
                    some (y, ',' :: (newlineChar :: (renderItems lvl (z :: zs) ++
                      (newlineChar :: (spacesChars (lvl * 2) ++ (']' :: rest2)))))) := by
                  rw [parseTok_skipWs_all, skipWs_newline, skipWs_spaces, hsk,
                    show c :: (t ++ (',' :: (newlineChar :: (renderItems lvl (z :: zs) ++
                      (newlineChar :: (spacesChars (lvl * 2) ++ (']' :: rest2))))))) =
                      renderJ (lvl + 1) y ++ (',' :: (newlineChar ::
                        (renderItems lvl (z :: zs) ++ (newlineChar ::
                          (spacesChars (lvl * 2) ++ (']' :: rest2))))))
                    from by rw [hct, List.cons_append]]
                  exact ih y (hsub y (by simp)) (lvl + 1) g _ (by omega) hTb hwfy.1
                rw [hin, parseItems]
                simp only [skipWs_newline, skipWs_spaces, hsk, if_neg hbr, htok,
                  skipWs_comma, if_pos (rfl : ',' = ','), hrec]
                simp
      cases xs with
      | nil =>
          have hin : renderJ lvl (Json.arr []) ++ rest = '[' :: (']' :: rest) := by
            simp [renderJ]
          rw [hin, parseTok, skipWs_lbracket]
          simp only [if_neg (by decide : ¬('[' = quoteChar)),
            if_neg (by decide : ¬('[' = 'n')), if_neg (by decide : ¬('[' = 't')),
            if_neg (by decide : ¬('[' = 'f')), if_pos (rfl : '[' = '[')]
          obtain ⟨f, rfl⟩ : ∃ f', f = f' + 1 := ⟨f - 1, by simp [Json.sizeItems] at hfuel; omega⟩
          rw [parseItems]
          simp only [skipWs_rbracket, if_pos (rfl : ']' = ']')]
          rfl
      | cons y ys =>
          have hitems := items (y :: ys) (fun w hw => hw) (by simp) hwfl f rest
            (by omega) hrest
          have hin : renderJ lvl (Json.arr (y :: ys)) ++ rest =
              '[' :: (newlineChar :: (renderItems lvl (y :: ys) ++
                (newlineChar :: (spacesChars (lvl * 2) ++ (']' :: rest))))) := by
            simp [renderJ]
          rw [hin, parseTok, skipWs_lbracket]
          simp only [if_neg (by decide : ¬('[' = quoteChar)),
            if_neg (by decide : ¬('[' = 'n')), if_neg (by decide : ¬('[' = 't')),
            if_neg (by decide : ¬('[' = 'f')), if_pos (rfl : '[' = '['), hitems]
          rfl
  | h5 fs ih =>
      intro lvl fuel rest hfuel hrest hwf
      simp only [Json.size] at hfuel
      obtain ⟨f, rfl⟩ : ∃ f, fuel = f + 1 := ⟨fuel - 1, by omega⟩
      simp only [Json.wf, Bool.and_eq_true] at hwf
      have fields : ∀ gs : List (String × Json), (∀ p ∈ gs, p ∈ fs) → gs ≠ [] →
          Json.wfFields gs = true →
          ∀ (g : Nat) (rest2 : List Char), Json.sizeFields gs ≤ g → numBoundary rest2 →
          parseFields g (newlineChar :: (renderFields lvl gs ++
            (newlineChar :: (spacesChars (lvl * 2) ++ (rbraceChar :: rest2))))) =
            some (gs, rest2) := by
        intro gs
        induction gs with
        | nil => intro _ hne; exact absurd rfl hne
        | cons p gs ihg =>
            intro hsub _ hwfg g rest2 hg hb2
            obtain ⟨k, v⟩ := p
            simp only [Json.sizeFields] at hg
            have hsv : 1 ≤ Json.size v := by
              cases v <;> simp [Json.size]
            obtain ⟨g, rfl⟩ : ∃ g', g = g' + 1 := ⟨g - 1, by omega⟩
            simp only [Json.wfFields, Bool.and_eq_true] at hwfg
            obtain ⟨c, t, hct, hws, _, hbr⟩ := renderJ_head (lvl + 1) v
            have hsk : ∀ l : List Char, skipWs (c :: l) = c :: l :=
              fun l => skipWs_cons_not_ws c l hws
            have hkey : ∀ (T : List Char),
                parseStrAux ((escList k.data ++ quoteChar :: T).length + 1)
                  (escList k.data ++ quoteChar :: T) = some (k.data, T) := by
              intro T
              apply parseStrAux_escList
              have := escList_length_ge k.data
              simp only [List.length_append, List.length_cons]
              omega
            cases gs with
            | nil =>
                have hEND : numBoundary (newlineChar :: (spacesChars (lvl * 2) ++
                    (rbraceChar :: rest2))) := numBoundary_newline _
                have hin : newlineChar :: (renderFields lvl [(k, v)] ++
                    (newlineChar :: (spacesChars (lvl * 2) ++ (rbraceChar :: rest2)))) =
                    newlineChar :: (spacesChars ((lvl + 1) * 2) ++
                      (quoteChar :: (escList k.data ++ quoteChar ::
                        (':' :: (' ' :: (c :: (t ++ (newlineChar ::
                          (spacesChars (lvl * 2) ++ (rbraceChar :: rest2)))))))))) := by
                  simp [renderFields, escString, hct]
                have htok : parseTok g (' ' :: (c :: (t ++ (newlineChar ::
                    (spacesChars (lvl * 2) ++ (rbraceChar :: rest2)))))) =
                    some (v, newlineChar :: (spacesChars (lvl * 2) ++
                      (rbraceChar :: rest2))) := by
                  rw [parseTok_skipWs_all, skipWs_space, hsk,
                    show c :: (t ++ (newlineChar :: (spacesChars (lvl * 2) ++
                      (rbraceChar :: rest2)))) = renderJ (lvl + 1) v ++
                      (newlineChar :: (spacesChars (lvl * 2) ++ (rbraceChar :: rest2)))
                    from by rw [hct, List.cons_append]]
                  exact ih (k, v) (hsub (k, v) (by simp)) (lvl + 1) g _
                    (by show Json.size v ≤ g; omega) hEND hwfg.1
                rw [hin, parseFields]
                simp only [skipWs_newline, skipWs_spaces, skipWs_quote,
                  if_neg (by decide : ¬(quoteChar = rbraceChar)),
                  if_pos (rfl : quoteChar = quoteChar), hkey, skipWs_colon,
                  if_pos (rfl : ':' = ':'), htok, skipWs_rbrace,
                  if_neg (by decide : ¬(rbraceChar = ',')),
                  if_pos (rfl : rbraceChar = rbraceChar), string_mk_data]
                simp
            | cons q qs =>
                have hrec := ihg (fun w hw => hsub w (by simp [hw])) (by simp) hwfg.2 g
                  rest2 (by omega) hb2
                have hTb : numBoundary (',' :: (newlineChar ::
                    (renderFields lvl (q :: qs) ++ (newlineChar ::
                      (spacesChars (lvl * 2) ++ (rbraceChar :: rest2)))))) :=
                  numBoundary_comma _
                have hin : newlineChar :: (renderFields lvl ((k, v) :: q :: qs) ++
                    (newlineChar :: (spacesChars (lvl * 2) ++ (rbraceChar :: rest2)))) =
                    newlineChar :: (spacesChars ((lvl + 1) * 2) ++
                      (quoteChar :: (escList k.data ++ quoteChar ::
                        (':' :: (' ' :: (c :: (t ++ (',' :: (newlineChar ::
                          (renderFields lvl (q :: qs) ++ (newlineChar ::
                            (spacesChars (lvl * 2) ++ (rbraceChar :: rest2))))))))))))) := by
                  simp [renderFields, escString, hct]
                have htok : parseTok g (' ' :: (c :: (t ++ (',' :: (newlineChar ::
                    (renderFields lvl (q :: qs) ++ (newlineChar ::
                      (spacesChars (lvl * 2) ++ (rbraceChar :: rest2))))))))) =
                    some (v, ',' :: (newlineChar :: (renderFields lvl (q :: qs) ++
                      (newlineChar :: (spacesChars (lvl * 2) ++
                        (rbraceChar :: rest2)))))) := by
                  rw [parseTok_skipWs_all, skipWs_space, hsk,
                    show c :: (t ++ (',' :: (newlineChar ::
                      (renderFields lvl (q :: qs) ++ (newlineChar ::
                        (spacesChars (lvl * 2) ++ (rbraceChar :: rest2))))))) =
                      renderJ (lvl + 1) v ++ (',' :: (newlineChar ::
                        (renderFields lvl (q :: qs) ++ (newlineChar ::
                          (spacesChars (lvl * 2) ++ (rbraceChar :: rest2))))))
                    from by rw [hct, List.cons_append]]
                  exact ih (k, v) (hsub (k, v) (by simp)) (lvl + 1) g _
                    (by show Json.size v ≤ g; omega) hTb hwfg.1
                rw [hin, parseFields]
                simp only [skipWs_newline, skipWs_spaces, skipWs_quote,
                  if_neg (by decide : ¬(quoteChar = rbraceChar)),
                  if_pos (rfl : quoteChar = quoteChar), hkey, skipWs_colon,
                  if_pos (rfl : ':' = ':'), htok, skipWs_comma,
                  if_pos (rfl : ',' = ','), hrec, string_mk_data]
                simp
      cases fs with
      | nil =>
          have hin : renderJ lvl (Json.obj []) ++ rest =
              lbraceChar :: (rbraceChar :: rest) := by
            simp [renderJ]
          rw [hin, parseTok, skipWs_lbrace]
          simp only [if_neg (by decide : ¬(lbraceChar = quoteChar)),
            if_neg (by decide : ¬(lbraceChar = 'n')),
            if_neg (by decide : ¬(lbraceChar = 't')),
            if_neg (by decide : ¬(lbraceChar = 'f')),
            if_neg (by decide : ¬(lbraceChar = '[')),
            if_pos (rfl : lbraceChar = lbraceChar)]
          obtain ⟨f, rfl⟩ : ∃ f', f = f' + 1 :=
            ⟨f - 1, by simp [Json.sizeFields] at hfuel; omega⟩
          rw [parseFields]
          simp only [skipWs_rbrace, if_pos (rfl : rbraceChar = rbraceChar)]
          rfl
      | cons p ps =>
          have hfields := fields (p :: ps) (fun w hw => hw) (by simp) hwf.2 f rest
            (by omega) hrest
          have hin : renderJ lvl (Json.obj (p :: ps)) ++ rest =
              lbraceChar :: (newlineChar :: (renderFields lvl (p :: ps) ++
                (newlineChar :: (spacesChars (lvl * 2) ++ (rbraceChar :: rest))))) := by
            obtain ⟨k, v⟩ := p
            simp [renderJ]
          rw [hin, parseTok, skipWs_lbrace]
          simp only [if_neg (by decide : ¬(lbraceChar = quoteChar)),
            if_neg (by decide : ¬(lbraceChar = 'n')),
            if_neg (by decide : ¬(lbraceChar = 't')),
            if_neg (by decide : ¬(lbraceChar = 'f')),
            if_neg (by decide : ¬(lbraceChar = '[')),
            if_pos (rfl : lbraceChar = lbraceChar), hfields]
          simp [dedupFields_of_keysOk (p :: ps) hwf.1]

/-- The parse fuel needed for a value is bounded by the length of its
rendering. -/
theorem size_le_renderJ (x : Json) : ∀ lvl, Json.size x ≤ (renderJ lvl x).length := by
  induction x using Json.rec_mem with
  | h0 => intro lvl; simp [Json.size, renderJ]
  | h1 b => intro lvl; cases b <;> simp [Json.size, renderJ]
  | h2 m e =>
      intro lvl
      obtain ⟨c, t, hct, _⟩ := renderNum_head m e
      show Json.size (Json.num m e) ≤ (renderNum m e).length
      rw [hct]
      simp [Json.size]
  | h3 s =>
      intro lvl
      show Json.size (Json.str s) ≤ (escString s).length
      simp only [Json.size, escString, List.length_cons, List.length_append]
      omega
  | h4 xs ih =>
      intro lvl
      cases xs with
      | nil => simp [Json.size, Json.sizeItems, renderJ]
      | cons y ys =>
          have hitems : ∀ (zs : List Json), (∀ z ∈ zs, z ∈ y :: ys) →
              Json.sizeItems zs ≤ (renderItems lvl zs).length + 1 := by
            intro zs
            induction zs with
            | nil => intro _; simp [Json.sizeItems, renderItems]
            | cons z ws ihz =>
                intro hsub
                have hz := ih z (hsub z (by simp)) (lvl + 1)
                cases ws with
                | nil =>
                    simp only [Json.sizeItems, renderItems, List.length_append,
                      List.length_replicate, spacesChars]
                    omega
                | cons w ws' =>
                    have hrest := ihz (fun u hu => hsub u (by simp [hu]))
                    simp only [Json.sizeItems] at hrest ⊢
                    simp only [renderItems, List.length_append, List.length_cons,
                      List.length_replicate, spacesChars] at hrest ⊢
                    omega
          have h1 := hitems (y :: ys) (fun z hz => hz)
          simp only [Json.size, renderJ, List.length_cons, List.length_append,
            List.length_replicate, spacesChars] at h1 ⊢
          omega
  | h5 fs ih =>
      intro lvl
      cases fs with
      | nil => simp [Json.size, Json.sizeFields, renderJ]
      | cons p ps =>
          have hfields : ∀ (gs : List (String × Json)), (∀ q ∈ gs, q ∈ p :: ps) →
              Json.sizeFields gs ≤ (renderFields lvl gs).length + 1 := by
            intro gs
            induction gs with
            | nil => intro _; simp [Json.sizeFields, renderFields]
            | cons q ws ihq =>
                intro hsub
                obtain ⟨k, v⟩ := q
                have hv := ih (k, v) (hsub (k, v) (by simp)) (lvl + 1)
                cases ws with
                | nil =>
                    simp only [Json.sizeFields, renderFields, List.length_append,
                      List.length_cons, List.length_replicate, spacesChars, escString]
                    simp only [Json.size] at hv
                    omega
                | cons w ws' =>
                    have hrest := ihq (fun u hu => hsub u (by simp [hu]))
                    simp only [Json.sizeFields] at hrest ⊢
                    simp only [renderFields, List.length_append, List.length_cons,
                      List.length_replicate, spacesChars, escString] at hrest ⊢
                    simp only [Json.size] at hv
                    omega
          have h1 := hfields (p :: ps) (fun q hq => hq)
          obtain ⟨k, v⟩ := p
          simp only [Json.size, renderJ, List.length_cons, List.length_append,
            List.length_replicate, spacesChars] at h1 ⊢
          omega

/-- Round-trip of Python's JSON persistence: parsing the serialized form
of any well-keyed value returns the value itself. -/
theorem loads_dumps (x : Json) (h : Json.wf x = true) : loads (dumps x) = some x := by
  have hmain := parseTok_renderJ x 0 ((renderJ 0 x).length + 1) []
    (le_trans (size_le_renderJ x 0) (by omega)) trivial h
  rw [List.append_nil] at hmain
  simp only [loads, dumps]
  rw [hmain]
  rfl

/-! ### The cache store: `sauvegarde_json` / `chargement_json` -/

/-- The empty structure `chargement_json` falls back to. -/
def structureVide : Json := Json.obj [("features", Json.arr [])]

/-- `chargement_json`: load the persisted file (modelled as
`Option String`; `none` when the file does not exist or cannot be read).
Invalid JSON (`json.JSONDecodeError`) or any read error yields the empty
structure instead of an exception. -/
def chargement_json (fichier : Option String) : Json :=
  match fichier with
  | none => structureVide
  | some contenu =>
      match loads contenu with
      | some donnees => donnees
      | none => structureVide

/-- Final file state written by `sauvegarde_json`: the full serialized
snapshot. -/
def sauvegarde_json (donnees : Json) : Option String := some (dumps donnees)

/-- Observable file states during `sauvegarde_json`.  The file is opened
with mode `w` (truncation) and then written in place, so a concurrent
reader or a crash can observe: the previous content, the truncated empty
file, and finally the complete new content.  No temporary file or rename
is involved. -/
def sauvegarde_json_etats (avant : Option String) (donnees : Json) :
    List (Option String) :=
  [avant, some "", some (dumps donnees)]

/-! ### The fetcher: `chargement_tremblements` -/

/-- Outcomes of the network request in `chargement_tremblements`, as
classified by its `except` clauses. -/
inductive ResultatRequete where
  | succes (donnees : Json)
  | connexionEchouee
  | erreurHttp (status : Nat) (message : String)
  | delaiDepasse
  | erreurInattendue (message : String)
  deriving DecidableEq

/-- `chargement_tremblements`: one fetch attempt (no retries).  The
network outcome is a parameter, since the model performs no IO; the
function returns the parsed payload on success and `None` on every
failure, with one classified log line per failure kind. -/
def chargement_tremblements : ResultatRequete → Option Json × List String
  | .succes donnees => (some donnees, [])
  | .connexionEchouee => (none, ["Erreur : impossible de se connecter au serveur."])
  | .erreurHttp status message =>
      (none, ["Erreur HTTP " ++ toString status ++ " : " ++ message])
  | .delaiDepasse => (none, ["Erreur : la requête a dépassé le délai autorisé."])
  | .erreurInattendue message =>
      (none, ["Erreur inattendue pendant le téléchargement : " ++ message])

/-! ### The refresh handlers: `maj_manuelle` / `maj_auto` -/

/-- Result of the `GET /update` handler: the file state afterwards, the
HTTP redirect target raised via `HTTPFound`, and the log lines printed. -/
structure ResultatMaj where
  fichier : Option String
  redirection : String
  journal : List String
  deriving DecidableEq

/-- `maj_manuelle`: log the trigger, run one fetch, save when the result
is truthy, log the failure otherwise, and always raise `HTTPFound("/")`
(an HTTP 302 redirect, not a fatal error).  `horodatage` stands for the
formatted current time of the first log line. -/
def maj_manuelle (horodatage : String) (resultat : ResultatRequete)
    (fichier : Option String) : ResultatMaj :=
  let journal0 := ["[" ++ horodatage ++ "] Mise à jour manuelle déclenchée."]
  let fetch := chargement_tremblements resultat
  match fetch.1 with
  | some d =>
      if d.truthy then
        { fichier := sauvegarde_json d, redirection := "/",
          journal := journal0 ++ fetch.2 }
      else
        { fichier := fichier, redirection := "/",
          journal := journal0 ++ fetch.2 ++
            ["Échec de la mise à jour manuelle : aucune donnée reçue."] }
  | none =>
      { fichier := fichier, redirection := "/",
        journal := journal0 ++ fetch.2 ++
          ["Échec de la mise à jour manuelle : aucune donnée reçue."] }

/-- One iteration of the `maj_auto` loop body: one fetch, save when the
result is truthy, otherwise keep the file unchanged (the event count it
logs on success does not touch the store). -/
def maj_auto_iteration (resultat : ResultatRequete) (fichier : Option String) :
    Option String :=
  match (chargement_tremblements resultat).1 with
  | some d => if d.truthy then sauvegarde_json d else fichier
  | none => fichier

/-! ### Concurrency model for the refresh triggers -/

/-- Externally observable actions of one refresh execution. -/
inductive ActionRafraichissement where
  | appelReseau
  | ecritureCache
  deriving DecidableEq

/-- The actions one invocation of the refresh logic (`maj_manuelle` or one
iteration of `maj_auto`) performs, given its fetch outcome: always exactly
one network call, then one cache write when the data is truthy.  Neither
function consults any shared guard before fetching. -/
def scriptRafraichissement (resultat : ResultatRequete) :
    List ActionRafraichissement :=
  ActionRafraichissement.appelReseau ::
    (match (chargement_tremblements resultat).1 with
     | some d => if d.truthy then [ActionRafraichissement.ecritureCache] else []
     | none => [])

/-- `Ilv xs ys t`: `t` is an interleaving of `xs` and `ys`, preserving the
order within each. -/
inductive Ilv : List ActionRafraichissement → List ActionRafraichissement →
    List ActionRafraichissement → Prop where
  | nil : Ilv [] [] []
  | left (a : ActionRafraichissement) (xs ys t : List ActionRafraichissement) :
      Ilv xs ys t → Ilv (a :: xs) ys (a :: t)
  | right (a : ActionRafraichissement) (xs ys t : List ActionRafraichissement) :
      Ilv xs ys t → Ilv xs (a :: ys) (a :: t)

/-- `IlvN ls t`: `t` is an interleaving of all the lists in `ls` — one
possible concurrent execution of those scripts. -/
def IlvN : List (List ActionRafraichissement) → List ActionRafraichissement → Prop
  | [], t => t = []
  | l :: ls, t => ∃ t', IlvN ls t' ∧ Ilv l t' t

/-! ### The view pipeline: `extract_evenements`, `trie_evenements`, `page_web` -/

/-- Python dynamic-typing failure kinds raised by the view pipeline on
ill-shaped data. -/
inductive ErreurPy where
  | attributeError
  | typeError
  deriving DecidableEq

/-- Python `d.get(k, defaut)`: only a dict has `.get`; any other receiver
raises `AttributeError`.  (Objects built by this program have unique keys,
so first-match lookup coincides with dict lookup.) -/
def pyGet (j : Json) (k : String) (defaut : Json) : Except ErreurPy Json :=
  match j with
  | .obj fs => .ok ((fs.lookup k).getD defaut)
  | _ => .error .attributeError

/-- Python `list(iterable)` over a JSON value: a list yields its items, a
string its characters, a dict its keys; numbers, booleans and `None` are
not iterable (`TypeError`). -/
def pyIter (j : Json) : Except ErreurPy (List Json) :=
  match j with
  | .arr xs => .ok xs
  | .str s => .ok (s.data.map (fun c => Json.str (String.mk [c])))
  | .obj fs => .ok (fs.map (fun p => Json.str p.1))
  | _ => .error .typeError

/-- Numeric value of a JSON value in Python arithmetic or comparison
context (`True`/`False` count as `1`/`0`); anything else raises
`TypeError`. -/
def pyNombre (j : Json) : Except ErreurPy ℚ :=
  match j with
  | .num m e => .ok (decVal m e)
  | .bool b => .ok (if b then 1 else 0)
  | _ => .error .typeError

/-- Python `x > tm / 10 ^ te` against a decimal threshold (the source
compares against the literal `0.1`, which is `tm = 1, te = 1`).  The
comparison of `m / 10 ^ e` with `tm / 10 ^ te` is written in
cross-multiplied integer form, which is equivalent because the
denominators `10 ^ e` are positive (`decVal_lt_decVal`). -/
def pyPlusGrand (j : Json) (tm : Int) (te : Nat) : Except ErreurPy Bool :=
  match j with
  | .num m e => .ok (decide (tm * 10 ^ e < m * 10 ^ te))
  | .bool b => .ok (decide (tm < (if b then (1 : Int) else 0) * 10 ^ te))
  | _ => .error .typeError

/-- One display record produced by `extract_evenements`; `moment` is
always a string. -/
structure Evenement where
  endroit : Json
  magnitude : Json
  moment : String
  url : Json
  deriving DecidableEq

/-- `extract_evenements`: extract one feature's display fields.  The
timestamp formatter (`datetime.fromtimestamp` followed by `strftime`,
which depends on the host timezone) is the parameter `fmt`, applied to
`time / 1000`; a falsy `time` (absent, `None` or `0`) yields the empty
string. -/
def extract_evenements (fmt : ℚ → String) (evenement : Json) :
    Except ErreurPy Evenement := do
  let propriete ← pyGet evenement "properties" (Json.obj [])
  let marque_temps ← pyGet propriete "time" Json.null
  let moment_str ←
    if marque_temps.truthy then do
      let t ← pyNombre marque_temps
      pure (fmt (t / 1000))
    else pure ""
  let endroit ← pyGet propriete "place" (Json.str "Unknown")
  let magnitude ← pyGet propriete "mag" (Json.num 0 0)
  let url ← pyGet propriete "url" (Json.str "")
  pure { endroit := endroit, magnitude := magnitude, moment := moment_str, url := url }

/-- Python `x or y`. -/
def pyOr (x y : Json) : Json := if x.truthy then x else y

mutual

/-- Python `==` between JSON values: numbers and booleans compare by
value, strings and lists structurally, mixed types are unequal (no
error).  Dicts are compared field-by-field in order; the dicts this
program compares come from one parse and have a canonical field order. -/
def pyEq : Json → Json → Bool
  | .null, .null => true
  | .num m e, .num m' e' => decide (m * 10 ^ e' = m' * 10 ^ e)
  | .num m e, .bool b => decide (m = (if b then (1 : Int) else 0) * 10 ^ e)
  | .bool b, .num m e => decide ((if b then (1 : Int) else 0) * 10 ^ e = m)
  | .bool a, .bool b => a == b
  | .str s, .str t => s == t
  | .arr xs, .arr ys => pyEqList xs ys
  | .obj fs, .obj gs => pyEqFields fs gs
  | _, _ => false

/-- Elementwise Python `==` on lists. -/
def pyEqList : List Json → List Json → Bool
  | [], [] => true
  | x :: xs, y :: ys => pyEq x y && pyEqList xs ys
  | _, _ => false

/-- Fieldwise Python `==` on object field lists. -/
def pyEqFields : List (String × Json) → List (String × Json) → Bool
  | [], [] => true
  | (k, v) :: fs, (k', v') :: gs => k == k' && pyEq v v' && pyEqFields fs gs
  | _, _ => false

end

/-- Lexicographic comparison of char lists by code point (Python's string
`<`): a proper prefix is smaller, otherwise the first differing code
point decides. -/
def strLtAux : List Char → List Char → Bool
  | [], [] => false
  | [], _ :: _ => true
  | _ :: _, [] => false
  | c :: cs, d :: ds =>
      if c.toNat = d.toNat then strLtAux cs ds else decide (c.toNat < d.toNat)

/-- Python `s < t` on strings. -/
def pyStrLt (s t : String) : Bool := strLtAux s.data t.data

mutual

/-- Python `<` between JSON values: numbers and booleans compare by value
(in cross-multiplied integer form, equivalent since denominators are
positive), strings lexicographically by code point, lists
lexicographically; anything else (dicts, `None`, mixed types) raises
`TypeError`. -/
def pyLt : Json → Json → Except ErreurPy Bool
  | .num m e, .num m' e' => .ok (decide (m * 10 ^ e' < m' * 10 ^ e))
  | .num m e, .bool b => .ok (decide (m < (if b then (1 : Int) else 0) * 10 ^ e))
  | .bool b, .num m e => .ok (decide ((if b then (1 : Int) else 0) * 10 ^ e < m))
  | .bool a, .bool b => .ok (!a && b)
  | .str s, .str t => .ok (pyStrLt s t)
  | .arr xs, .arr ys => pyLtList xs ys
  | _, _ => .error .typeError

/-- Lexicographic Python `<` on lists: skip `==` prefixes, then compare. -/
def pyLtList : List Json → List Json → Except ErreurPy Bool
  | [], [] => .ok false
  | [], _ :: _ => .ok true
  | _ :: _, [] => .ok false
  | x :: xs, y :: ys => if pyEq x y then pyLtList xs ys else pyLt x y

end

/-- The sort key table of `trie_evenements` (`key_map`); `.get` with an
unknown key falls back to the `magnitude` entry. -/
def fonction_cle (trier_par : String) : Evenement → Json :=
  if trier_par = "magnitude" then fun e => pyOr e.magnitude (Json.num 0 0)
  else if trier_par = "endroit" then fun e => pyOr e.endroit (Json.str "")
  else if trier_par = "moment" then fun e => pyOr (Json.str e.moment) (Json.str "")
  else fun e => pyOr e.magnitude (Json.num 0 0)

/-- Insert `a` into an already sorted list: `garde a b` says `a` may be
placed before `b` (it holds on ties, preserving the original order). -/
def ordInsertM (garde : Evenement → Evenement → Except ErreurPy Bool) (a : Evenement) :
    List Evenement → Except ErreurPy (List Evenement)
  | [] => .ok [a]
  | b :: l => do
      if (← garde a b) then pure (a :: b :: l)
      else pure (b :: (← ordInsertM garde a l))

/-- Stable insertion sort with an effectful comparator. -/
def stableSortM (garde : Evenement → Evenement → Except ErreurPy Bool) :
    List Evenement → Except ErreurPy (List Evenement)
  | [] => .ok []
  | a :: l => do ordInsertM garde a (← stableSortM garde l)

/-- Python `sorted(evs, key=cle, reverse=inverse)`: the unique stable sort
of the list by `<` on keys (stable also with `reverse=True`), modelled as
stable insertion; the comparator raises `TypeError` exactly when Python's
`<` does on the keys involved. -/
def python_sorted (cle : Evenement → Json) (inverse : Bool) (l : List Evenement) :
    Except ErreurPy (List Evenement) :=
  stableSortM
    (fun a b =>
      if inverse then Except.map (fun r => !r) (pyLt (cle a) (cle b))
      else Except.map (fun r => !r) (pyLt (cle b) (cle a)))
    l

/-- `trie_evenements`: sort the display records by the requested column,
descending when `ordre = "descendant"`. -/
def trie_evenements (evenements : List Evenement) (trier_par : String)
    (ordre : String) : Except ErreurPy (List Evenement) :=
  python_sorted (fonction_cle trier_par) (ordre == "descendant") evenements

/-- `list(map(extract_evenements, features))`: extract all features in
order; the first exception aborts. -/
def extraitTous (fmt : ℚ → String) : List Json → Except ErreurPy (List Evenement)
  | [] => .ok []
  | x :: l => do pure ((← extract_evenements fmt x) :: (← extraitTous fmt l))

/-- `list(filter(p, evs))` with an effectful predicate. -/
def filtreM (p : Evenement → Except ErreurPy Bool) :
    List Evenement → Except ErreurPy (List Evenement)
  | [] => .ok []
  | x :: l => do
      if (← p x) then pure (x :: (← filtreM p l)) else filtreM p l

/-- The event computation of the `GET /` handler `page_web`: re-read the
persisted file, take its `features`, extract display records, keep those
with magnitude above `0.1`, and sort by the requested column.  The handler
keeps no state of its own; the HTML rows are generated from this list in
order. -/
def page_web_evenements (fmt : ℚ → String) (fichier : Option String)
    (trier_par ordre : String) : Except ErreurPy (List Evenement) := do
  let donnees := chargement_json fichier
  let features ← pyGet donnees "features" (Json.arr [])
  let listeFeatures ← pyIter features
  let evenements ← extraitTous fmt listeFeatures
  let evenements ← filtreM (fun e => pyPlusGrand e.magnitude 1 1) evenements
  trie_evenements evenements trier_par ordre

/-- `requete.query.get(cle, defaut)`. -/
def requete_query (query : List (String × String)) (cle defaut : String) : String :=
  (query.lookup cle).getD defaut

/-- The full `GET /` handler parameter handling: `tri` defaults to
`"moment"`, `ordre` to `"descendant"`. -/
def page_web_requete (fmt : ℚ → String) (fichier : Option String)
    (query : List (String × String)) : Except ErreurPy (List Evenement) :=
  page_web_evenements fmt fichier (requete_query query "tri" "moment")
    (requete_query query "ordre" "descendant")

instance {ε α : Type} [DecidableEq ε] [DecidableEq α] : DecidableEq (Except ε α) :=
  fun a b =>
    match a, b with
    | .ok x, .ok y =>
        if h : x = y then isTrue (by rw [h]) else isFalse (by intro hc; injection hc; exact h ‹_›)
    | .error x, .error y =>
        if h : x = y then isTrue (by rw [h]) else isFalse (by intro hc; injection hc; exact h ‹_›)
    | .ok _, .error _ => isFalse (by intro hc; injection hc)
    | .error _, .ok _ => isFalse (by intro hc; injection hc)

theorem except_bind_ok {α β : Type} (a : α) (f : α → Except ErreurPy β) :
    (Except.ok a >>= f) = f a := rfl

theorem except_bind_error {α β : Type} (err : ErreurPy) (f : α → Except ErreurPy β) :
    ((Except.error err : Except ErreurPy α) >>= f) = Except.error err := rfl

/-- A successful insertion splits the target list: the skipped prefix
consists of elements the guard rejected. -/
theorem ordInsertM_ok_shape (garde : Evenement → Evenement → Except ErreurPy Bool)
    (a : Evenement) :
    ∀ l out, ordInsertM garde a l = .ok out →
      ∃ l1 l2, l = l1 ++ l2 ∧ out = l1 ++ a :: l2 ∧
        ∀ b ∈ l1, garde a b = .ok false := by
  intro l
  induction l with
  | nil =>
      intro out h
      refine ⟨[], [], rfl, ?_, by simp⟩
      simp only [ordInsertM] at h
      injection h with h
      rw [← h]
      rfl
  | cons b l ih =>
      intro out h
      simp only [ordInsertM] at h
      cases hg : garde a b with
      | error err => rw [hg] at h; exact absurd h (by simp [except_bind_error])
      | ok keep =>
          rw [hg] at h
          cases keep with
          | true =>
              rw [except_bind_ok] at h
              simp only [if_pos rfl] at h
              injection h with h
              exact ⟨[], b :: l, rfl, by rw [← h]; rfl, by simp⟩
          | false =>
              rw [except_bind_ok] at h
              simp only [Bool.false_eq_true, if_false] at h
              cases hrec : ordInsertM garde a l with
              | error err => rw [hrec] at h; exact absurd h (by simp [except_bind_error])
              | ok out' =>
                  rw [hrec, except_bind_ok] at h
                  injection h with h
                  obtain ⟨l1, l2, hl, hout, hskip⟩ := ih out' hrec
                  refine ⟨b :: l1, l2, by rw [hl, List.cons_append],
                    by rw [← h, hout, List.cons_append], ?_⟩
                  intro c hc
                  rcases List.mem_cons.mp hc with rfl | hc
                  · exact hg
                  · exact hskip c hc

theorem ordInsertM_ok_mem (garde : Evenement → Evenement → Except ErreurPy Bool)
    (a : Evenement) (l out : List Evenement) (h : ordInsertM garde a l = .ok out) :
    ∀ e, e ∈ out ↔ e = a ∨ e ∈ l := by
  obtain ⟨l1, l2, hl, hout, _⟩ := ordInsertM_ok_shape garde a l out h
  intro e
  subst hl hout
  simp only [List.mem_append, List.mem_cons]
  tauto

theorem stableSortM_ok_mem (garde : Evenement → Evenement → Except ErreurPy Bool) :
    ∀ l out, stableSortM garde l = .ok out → ∀ e, e ∈ out ↔ e ∈ l := by
  intro l
  induction l with
  | nil =>
      intro out h e
      simp only [stableSortM] at h
      injection h with h
      rw [← h]
  | cons a l ih =>
      intro out h e
      simp only [stableSortM] at h
      cases hrec : stableSortM garde l with
      | error err => rw [hrec] at h; exact absurd h (by simp [except_bind_error])
      | ok s =>
          rw [hrec, except_bind_ok] at h
          rw [ordInsertM_ok_mem garde a s out h e, ih s hrec e]
          simp

/-- Stability of the effectful insertion sort: when the guard never lets
an element jump over one satisfying `p` while itself satisfying `p`, the
`p`-filtered subsequence is untouched. -/
theorem stableSortM_filter (garde : Evenement → Evenement → Except ErreurPy Bool)
    (p : Evenement → Bool)
    (hcond : ∀ a b, garde a b = .ok false → p a = true → p b = false) :
    ∀ l out, stableSortM garde l = .ok out → out.filter p = l.filter p := by
  intro l
  induction l with
  | nil =>
      intro out h
      simp only [stableSortM] at h
      injection h with h
      rw [← h]
  | cons a l ih =>
      intro out h
      simp only [stableSortM] at h
      cases hrec : stableSortM garde l with
      | error err => rw [hrec] at h; exact absurd h (by simp [except_bind_error])
      | ok s =>
          rw [hrec, except_bind_ok] at h
          obtain ⟨l1, l2, hl, hout, hskip⟩ := ordInsertM_ok_shape garde a s out h
          have hs : s.filter p = l.filter p := ih s hrec
          subst hout
          rw [List.filter_append, List.filter_cons]
          cases hpa : p a with
          | true =>
              have hl1 : l1.filter p = [] := by
                rw [List.filter_eq_nil_iff]
                intro b hb
                rw [hcond a b (hskip b hb) hpa]
                simp
              rw [hl1]
              simp only [if_pos rfl, List.nil_append]
              have : l2.filter p = s.filter p := by
                rw [hl, List.filter_append, hl1, List.nil_append]
              rw [this, hs, List.filter_cons, hpa]
              simp
          | false =>
              simp only [Bool.false_eq_true, if_false]
              rw [← List.filter_append, ← hl, hs, List.filter_cons, hpa]
              simp

theorem pyEq_refl : ∀ j : Json, pyEq j j = true := by
  intro j
  induction j using Json.rec_mem with
  | h0 => rfl
  | h1 b => cases b <;> rfl
  | h2 m e => simp [pyEq]
  | h3 s => simp [pyEq]
  | h4 xs ih =>
      simp only [pyEq]
      induction xs with
      | nil => rfl
      | cons x l ihl =>
          simp only [pyEqList, Bool.and_eq_true]
          exact ⟨ih x (by simp), ihl (fun z hz => ih z (by simp [hz]))⟩
  | h5 fs ih =>
      simp only [pyEq]
      induction fs with
      | nil => rfl
      | cons f l ihl =>
          obtain ⟨k, v⟩ := f
          simp only [pyEqFields, Bool.and_eq_true]
          exact ⟨⟨by simp, ih (k, v) (by simp)⟩, ihl (fun z hz => ih z (by simp [hz]))⟩

theorem pyLtList_self : ∀ xs : List Json, pyLtList xs xs = .ok false := by
  intro xs
  induction xs with
  | nil => rfl
  | cons x l ih => simp [pyLtList, pyEq_refl x, ih]

theorem strLtAux_self : ∀ l : List Char, strLtAux l l = false := by
  intro l
  induction l with
  | nil => rfl
  | cons c cs ih => simp [strLtAux, ih]

theorem pyLt_irrefl : ∀ j : Json, pyLt j j ≠ .ok true := by
  intro j
  cases j with
  | null => simp [pyLt]
  | bool b => simp [pyLt]
  | num m e => simp [pyLt]
  | str s => simp [pyLt, pyStrLt, strLtAux_self]
  | arr xs => simp [pyLt, pyLtList_self]
  | obj fs => simp [pyLt]

theorem filtreM_ok_mem (p : Evenement → Except ErreurPy Bool) :
    ∀ l out, filtreM p l = .ok out → ∀ e ∈ out, p e = .ok true ∧ e ∈ l := by
  intro l
  induction l with
  | nil =>
      intro out h e he
      simp only [filtreM] at h
      injection h with h
      rw [← h] at he
      simp at he
  | cons x l ih =>
      intro out h e he
      simp only [filtreM] at h
      cases hp : p x with
      | error err => rw [hp] at h; exact absurd h (by simp [except_bind_error])
      | ok b =>
          rw [hp, except_bind_ok] at h
          cases b with
          | true =>
              simp only [if_pos rfl] at h
              cases hrec : filtreM p l with
              | error err => rw [hrec] at h; exact absurd h (by simp [except_bind_error])
              | ok out' =>
                  rw [hrec, except_bind_ok] at h
                  injection h with h
                  rw [← h] at he
                  rcases List.mem_cons.mp he with rfl | he
                  · exact ⟨hp, by simp⟩
                  · obtain ⟨h1, h2⟩ := ih out' hrec e he
                    exact ⟨h1, by simp [h2]⟩
          | false =>
              simp only [Bool.false_eq_true, if_false] at h
              obtain ⟨h1, h2⟩ := ih out h e he
              exact ⟨h1, by simp [h2]⟩

theorem trie_evenements_mem (evenements : List Evenement) (trier_par ordre : String)
    (out : List Evenement) (h : trie_evenements evenements trier_par ordre = .ok out) :
    ∀ e ∈ out, e ∈ evenements := by
  intro e he
  simp only [trie_evenements, python_sorted] at h
  exact (stableSortM_ok_mem _ evenements out h e).mp he

theorem decVal_lt_decVal (m1 : Int) (e1 : Nat) (m2 : Int) (e2 : Nat) :
    decVal m1 e1 < decVal m2 e2 ↔ m1 * 10 ^ e2 < m2 * 10 ^ e1 := by
  unfold decVal
  rw [div_lt_div_iff₀ (by positivity) (by positivity)]
  constructor
  · intro h
    exact_mod_cast h
  · intro h
    exact_mod_cast h

theorem pyPlusGrand_ok_true (j : Json) (h : pyPlusGrand j 1 1 = .ok true) :
    ∃ v, pyNombre j = .ok v ∧ 1 / 10 < v := by
  cases j with
  | num m e =>
      simp only [pyPlusGrand] at h
      have hlt : (1 : Int) * 10 ^ e < m * 10 ^ 1 := by
        have := of_decide_eq_true (by injection h)
        simpa using this
      refine ⟨decVal m e, rfl, ?_⟩
      have h10 : (1 : ℚ) / 10 = decVal 1 1 := by
        simp [decVal]
      rw [h10, decVal_lt_decVal 1 1 m e]
      exact hlt
  | bool b =>
      cases b with
      | true =>
          refine ⟨1, rfl, by norm_num⟩
      | false =>
          exfalso
          simp [pyPlusGrand] at h
  | null => simp [pyPlusGrand] at h
  | str s => simp [pyPlusGrand] at h
  | arr xs => simp [pyPlusGrand] at h
  | obj fs => simp [pyPlusGrand] at h

theorem except_map_not_eq_false (x : Except ErreurPy Bool)
    (h : Except.map (fun r => !r) x = .ok false) : x = .ok true := by
  cases x with
  | error err => simp [Except.map] at h
  | ok r =>
      simp only [Except.map] at h
      injection h with h
      cases r with
      | true => rfl
      | false => simp at h

/-- Stability of `trie_evenements`, for every sort key and order: the
subsequence of records whose sort key equals any fixed value `k` is
exactly the same, in the same order, as in the input. -/
theorem trie_evenements_stable (evenements : List Evenement) (trier_par ordre : String)
    (out : List Evenement) (h : trie_evenements evenements trier_par ordre = .ok out)
    (k : Json) :
    out.filter (fun e => decide (fonction_cle trier_par e = k)) =
      evenements.filter (fun e => decide (fonction_cle trier_par e = k)) := by
  simp only [trie_evenements, python_sorted] at h
  refine stableSortM_filter _ _ ?_ evenements out h
  intro a b hg hpa
  have hak : fonction_cle trier_par a = k := by simpa using hpa
  rcases Bool.eq_false_or_eq_true (decide (fonction_cle trier_par b = k)) with ht | hf
  · exfalso
    have hbk : fonction_cle trier_par b = k := by simpa using ht
    by_cases hinv : (ordre == "descendant") = true
    · rw [if_pos hinv] at hg
      have := except_map_not_eq_false _ hg
      rw [hak, hbk] at this
      exact pyLt_irrefl k this
    · rw [if_neg hinv] at hg
      have := except_map_not_eq_false _ hg
      rw [hak, hbk] at this
      exact pyLt_irrefl k this
  · exact hf

/-! ### Counting lemmas for the concurrency model -/

theorem Ilv.count_eq (a : ActionRafraichissement) :
    ∀ xs ys t, Ilv xs ys t → t.count a = xs.count a + ys.count a := by
  intro xs ys t h
  induction h with
  | nil => rfl
  | left b xs ys t _ ih =>
      simp only [List.count_cons, ih]
      omega
  | right b xs ys t _ ih =>
      simp only [List.count_cons, ih]
      omega

theorem IlvN_count (a : ActionRafraichissement) :
    ∀ ls t, IlvN ls t → t.count a = (ls.map (fun l => l.count a)).sum := by
  intro ls
  induction ls with
  | nil =>
      intro t h
      rw [show t = [] from h]
      rfl
  | cons l ls ih =>
      intro t h
      obtain ⟨t', h1, h2⟩ := h
      rw [Ilv.count_eq a l t' t h2, ih t' h1]
      simp

theorem scriptRafraichissement_count_reseau (resultat : ResultatRequete) :
    (scriptRafraichissement resultat).count ActionRafraichissement.appelReseau = 1 := by
  cases resultat with
  | succes donnees =>
      simp only [scriptRafraichissement, chargement_tremblements]
      by_cases h : donnees.truthy
      · simp [h]
      · simp [h]
  | connexionEchouee => rfl
  | erreurHttp s m => rfl
  | delaiDepasse => rfl
  | erreurInattendue m => rfl

theorem scriptRafraichissement_count_cache (resultat : ResultatRequete) :
    (scriptRafraichissement resultat).count ActionRafraichissement.ecritureCache ≤ 1 := by
  cases resultat with
  | succes donnees =>
      simp only [scriptRafraichissement, chargement_tremblements]
      by_cases h : donnees.truthy
      · simp [h]
      · simp [h]
  | connexionEchouee => simp [scriptRafraichissement, chargement_tremblements]
  | erreurHttp s m => simp [scriptRafraichissement, chargement_tremblements]
  | delaiDepasse => simp [scriptRafraichissement, chargement_tremblements]
  | erreurInattendue m => simp [scriptRafraichissement, chargement_tremblements]

/-- Success test on a fetch outcome. -/
def estSucces : ResultatRequete → Bool
  | .succes _ => true
  | _ => false

/-! ### Concrete data used by the claim witnesses -/

/-- A small well-formed feed payload: one feature of magnitude `2.5` at
place `"X"` with `time = 0`. -/
def donneesExemple : Json :=
  Json.obj [("features", Json.arr [Json.obj [("properties",
    Json.obj [("mag", Json.num 25 1), ("place", Json.str "X"), ("time", Json.num 0 0)])]])]

/-- The display record extracted from the single feature of
`donneesExemple`. -/
def evenementX : Evenement :=
  { endroit := Json.str "X", magnitude := Json.num 25 1, moment := "", url := Json.str "" }

/-- Record at place `"A"`. -/
def evenementA : Evenement :=
  { endroit := Json.str "A", magnitude := Json.num 3 0, moment := "", url := Json.str "" }

/-- Record at place `"B"`. -/
def evenementB : Evenement :=
  { endroit := Json.str "B", magnitude := Json.num 2 0, moment := "", url := Json.str "" }

/-- Record at place `"C"`. -/
def evenementC : Evenement :=
  { endroit := Json.str "C", magnitude := Json.num 1 0, moment := "", url := Json.str "" }

/-! ### The claims -/

/-- C2 — Fallback on failure: when the fetch returns no data
(`chargement_tremblements` yields `None`), `maj_manuelle` leaves the
persisted file exactly as it was, raises only the usual redirect to `/`
(HTTP 302, not a fatal error), and records the failure in its log. -/
theorem C2_repli_sur_echec (horodatage : String) (resultat : ResultatRequete)
    (fichier : Option String)
    (h : (chargement_tremblements resultat).1 = none) :
    (maj_manuelle horodatage resultat fichier).fichier = fichier ∧
    (maj_manuelle horodatage resultat fichier).redirection = "/" ∧
    "Échec de la mise à jour manuelle : aucune donnée reçue." ∈
      (maj_manuelle horodatage resultat fichier).journal := by
  simp only [maj_manuelle, h]
  simp

/-- C2 witness: a timeout leaves a concrete file untouched. -/
theorem C2_repli_sur_echec_temoin :
    (maj_manuelle "t" ResultatRequete.delaiDepasse (some "ancien")).fichier = some "ancien" ∧
    (maj_manuelle "t" ResultatRequete.delaiDepasse (some "ancien")).redirection = "/" ∧
    "Échec de la mise à jour manuelle : aucune donnée reçue." ∈
      (maj_manuelle "t" ResultatRequete.delaiDepasse (some "ancien")).journal :=
  C2_repli_sur_echec "t" ResultatRequete.delaiDepasse (some "ancien") rfl

/-- C4 — Round-trip persistence: saving any valid (well-keyed) payload
through the cache store and loading it back returns the same value. -/
theorem C4_aller_retour (x : Json) (h : Json.wf x = true) :
    chargement_json (sauvegarde_json x) = x := by
  simp only [chargement_json, sauvegarde_json, loads_dumps x h]

/-- C4 witness: round-trip of a concrete feed payload. -/
theorem C4_aller_retour_temoin :
    chargement_json (sauvegarde_json donneesExemple) = donneesExemple :=
  C4_aller_retour donneesExemple (by decide)

/-- C7 — Recoverable load: a missing file and unparseable content both
make `chargement_json` return the empty structure, whose `features` entry
is the empty list; neither raises an error to the caller. -/
theorem C7_chargement_recuperable :
    chargement_json none = structureVide ∧
    (∀ s, loads s = none → chargement_json (some s) = structureVide) ∧
    pyGet structureVide "features" (Json.arr []) = .ok (Json.arr []) := by
  refine ⟨rfl, ?_, rfl⟩
  intro s hs
  simp only [chargement_json, hs]

/-- C7 witness: a concrete unparseable file content loads as the empty
structure. -/
theorem C7_chargement_recuperable_temoin :
    chargement_json (some "pas du json") = structureVide :=
  C7_chargement_recuperable.2.1 "pas du json" (by decide)

/-- C8 counterexample: two different failure kinds produce the very same
return value (`None`), so the value returned to the caller does not carry
the classified error kind the claim describes. -/
theorem C8_contre_exemple :
    (chargement_tremblements ResultatRequete.connexionEchouee).1 =
      (chargement_tremblements ResultatRequete.delaiDepasse).1 ∧
    ResultatRequete.connexionEchouee ≠ ResultatRequete.delaiDepasse :=
  ⟨rfl, by decide⟩

/-- C8 amended — classified logging, unclassified return: the fetch
returns the parsed payload on success and `None` on every failure; the
failure kind is recorded only in the log line (nonempty on failure), so
the caller can detect failure but not branch on its kind.  Each
invocation performs a single attempt. -/
theorem C8_echec_non_classifie :
    (∀ d, chargement_tremblements (.succes d) = (some d, [])) ∧
    (∀ o, estSucces o = false →
      (chargement_tremblements o).1 = none ∧ (chargement_tremblements o).2 ≠ []) := by
  refine ⟨fun d => rfl, ?_⟩
  intro o h
  cases o <;> simp_all [chargement_tremblements, estSucces]

/-- C8 witness: the timeout outcome returns `None` with a log line. -/
theorem C8_echec_non_classifie_temoin :
    (chargement_tremblements ResultatRequete.delaiDepasse).1 = none ∧
    (chargement_tremblements ResultatRequete.delaiDepasse).2 ≠ [] :=
  C8_echec_non_classifie.2 ResultatRequete.delaiDepasse rfl

/-- C10 — epoch zero treated as missing: a feature whose `properties`
carry `time = 0` (any decimal zero) extracts exactly as if `time` were
absent, with an empty timestamp string, for every timestamp formatter. -/
theorem C10_temps_zero_comme_absent (fmt : ℚ → String) (e : Nat)
    (fs : List (String × Json)) (h : fs.lookup "time" = none) :
    extract_evenements fmt
        (Json.obj [("properties", Json.obj (("time", Json.num 0 e) :: fs))]) =
      extract_evenements fmt (Json.obj [("properties", Json.obj fs)]) ∧
    ∃ r, extract_evenements fmt
        (Json.obj [("properties", Json.obj (("time", Json.num 0 e) :: fs))]) = .ok r ∧
      r.moment = "" := by
  have h1 : extract_evenements fmt
      (Json.obj [("properties", Json.obj (("time", Json.num 0 e) :: fs))]) =
      .ok { endroit := (fs.lookup "place").getD (Json.str "Unknown"),
            magnitude := (fs.lookup "mag").getD (Json.num 0 0),
            moment := "",
            url := (fs.lookup "url").getD (Json.str "") } := by
    simp only [extract_evenements, pyGet, List.lookup, except_bind_ok]
    simp only [show (("properties" : String) == "properties") = true from by decide,
      if_pos rfl, Option.getD_some, except_bind_ok]
    simp only [show (("time" : String) == "time") = true from by decide,
      show (("place" : String) == "time") = false from by decide,
      show (("mag" : String) == "time") = false from by decide,
      show (("url" : String) == "time") = false from by decide,
      if_pos rfl, Option.getD_some, Json.truthy]
    rfl
  have h2 : extract_evenements fmt (Json.obj [("properties", Json.obj fs)]) =
      .ok { endroit := (fs.lookup "place").getD (Json.str "Unknown"),
            magnitude := (fs.lookup "mag").getD (Json.num 0 0),
            moment := "",
            url := (fs.lookup "url").getD (Json.str "") } := by
    simp only [extract_evenements, pyGet, List.lookup, except_bind_ok]
    simp only [show (("properties" : String) == "properties") = true from by decide,
      if_pos rfl, Option.getD_some, except_bind_ok]
    simp only [h, Option.getD_none, Json.truthy, Bool.false_eq_true, if_false,
      except_bind_ok]
    rfl
  rw [h1, h2]
  exact ⟨rfl, _, rfl, rfl⟩

/-- C10 witness: concrete feature with `time = 0` and a `mag` field. -/
theorem C10_temps_zero_comme_absent_temoin :
    extract_evenements (fun _ => "jamais")
        (Json.obj [("properties", Json.obj
          [("time", Json.num 0 0), ("mag", Json.num 1 0)])]) =
      extract_evenements (fun _ => "jamais")
        (Json.obj [("properties", Json.obj [("mag", Json.num 1 0)])]) ∧
    ∃ r, extract_evenements (fun _ => "jamais")
        (Json.obj [("properties", Json.obj
          [("time", Json.num 0 0), ("mag", Json.num 1 0)])]) = .ok r ∧
      r.moment = "" :=
  C10_temps_zero_comme_absent (fun _ => "jamais") 0 [("mag", Json.num 1 0)] (by decide)

/-- C1 counterexample: an interleaved execution of two concurrent refresh
invocations (manual and/or periodic — both run the same fetch-then-save
body with no shared guard) performs two network calls, not the single one
the claim requires. -/
theorem C1_contre_exemple :
    IlvN [scriptRafraichissement (.succes donneesExemple),
          scriptRafraichissement (.succes donneesExemple)]
      [ActionRafraichissement.appelReseau, ActionRafraichissement.ecritureCache,
       ActionRafraichissement.appelReseau, ActionRafraichissement.ecritureCache] ∧
    ([ActionRafraichissement.appelReseau, ActionRafraichissement.ecritureCache,
      ActionRafraichissement.appelReseau, ActionRafraichissement.ecritureCache].count
        ActionRafraichissement.appelReseau = 2) ∧ (2 : Nat) ≠ 1 := by
  refine ⟨?_, by decide, by decide⟩
  exact ⟨[ActionRafraichissement.appelReseau, ActionRafraichissement.ecritureCache],
    ⟨[], rfl, Ilv.left _ _ _ _ (Ilv.left _ _ _ _ Ilv.nil)⟩,
    Ilv.left _ _ _ _ (Ilv.left _ _ _ _ (Ilv.right _ _ _ _
      (Ilv.right _ _ _ _ Ilv.nil)))⟩

/-- C1 amended — no single-flight collapsing exists: every concurrent
execution (interleaving) of N refresh invocations performs exactly N
network calls and at most N cache writes, because each invocation runs
its own fetch unconditionally. -/
theorem C1_absence_vol_unique (resultats : List ResultatRequete)
    (t : List ActionRafraichissement)
    (h : IlvN (resultats.map scriptRafraichissement) t) :
    t.count ActionRafraichissement.appelReseau = resultats.length ∧
    t.count ActionRafraichissement.ecritureCache ≤ resultats.length := by
  have h1 := IlvN_count ActionRafraichissement.appelReseau _ t h
  have h2 := IlvN_count ActionRafraichissement.ecritureCache _ t h
  rw [h1, h2]
  clear h1 h2 h
  induction resultats with
  | nil => simp
  | cons r rs ih =>
      simp only [List.map_cons, List.map_map, List.sum_cons, List.length_cons,
        Function.comp] at ih ⊢
      have hr1 := scriptRafraichissement_count_reseau r
      have hr2 := scriptRafraichissement_count_cache r
      omega

/-- C1 witness: one single invocation yields one network call. -/
theorem C1_absence_vol_unique_temoin :
    [ActionRafraichissement.appelReseau].count ActionRafraichissement.appelReseau =
      [ResultatRequete.delaiDepasse].length ∧
    [ActionRafraichissement.appelReseau].count ActionRafraichissement.ecritureCache ≤
      [ResultatRequete.delaiDepasse].length :=
  C1_absence_vol_unique [ResultatRequete.delaiDepasse] [ActionRafraichissement.appelReseau]
    ⟨[], rfl, Ilv.left _ _ _ _ Ilv.nil⟩

/-- C3 counterexample: during `sauvegarde_json` the file passes through
the truncated (empty) state, which is neither the previous complete
content nor the new complete content — a reader opening the file at that
moment sees a partial (empty) snapshot. -/
theorem C3_contre_exemple :
    some "" ∈ sauvegarde_json_etats (some "ancien") structureVide ∧
    some "" ≠ some "ancien" ∧
    some "" ≠ sauvegarde_json structureVide := by
  refine ⟨by simp [sauvegarde_json_etats], by decide, by decide⟩

/-- C3 amended — sequential in-place write, not temp-then-rename: the
save opens the target file with truncation and writes the full serialized
snapshot in place.  A completed save leaves exactly the new content,
which loads back to the saved value, but the truncated empty file is an
observable intermediate state. -/
theorem C3_ecriture_en_place (avant : Option String) (d : Json)
    (h : Json.wf d = true) :
    (sauvegarde_json_etats avant d).head? = some avant ∧
    some "" ∈ sauvegarde_json_etats avant d ∧
    (sauvegarde_json_etats avant d).getLast? = some (sauvegarde_json d) ∧
    chargement_json (sauvegarde_json d) = d := by
  refine ⟨rfl, by simp [sauvegarde_json_etats], rfl, ?_⟩
  simp only [chargement_json, sauvegarde_json, loads_dumps d h]

/-- C3 witness: the write sequence for a concrete payload. -/
theorem C3_ecriture_en_place_temoin :
    (sauvegarde_json_etats (some "ancien") donneesExemple).head? = some (some "ancien") ∧
    some "" ∈ sauvegarde_json_etats (some "ancien") donneesExemple ∧
    (sauvegarde_json_etats (some "ancien") donneesExemple).getLast? =
      some (sauvegarde_json donneesExemple) ∧
    chargement_json (sauvegarde_json donneesExemple) = donneesExemple :=
  C3_ecriture_en_place (some "ancien") donneesExemple (by decide)

/-- C5 — display threshold: for every persisted file content, every sort
key and order, and every timestamp formatter, each record in the list the
page serves has a numeric magnitude strictly greater than `0.1` (records
at or below the threshold are filtered out before sorting). -/
theorem C5_filtre_seuil (fmt : ℚ → String) (fichier : Option String)
    (trier_par ordre : String) (evs : List Evenement)
    (hres : page_web_evenements fmt fichier trier_par ordre = .ok evs) :
    ∀ e ∈ evs, ∃ v, pyNombre e.magnitude = .ok v ∧ 1 / 10 < v := by
  intro e he
  simp only [page_web_evenements] at hres
  cases hg : pyGet (chargement_json fichier) "features" (Json.arr []) with
  | error err =>
      rw [hg, except_bind_error] at hres
      exact absurd hres (by simp)
  | ok feats =>
      rw [hg, except_bind_ok] at hres
      cases hi : pyIter feats with
      | error err =>
          rw [hi, except_bind_error] at hres
          exact absurd hres (by simp)
      | ok lf =>
          rw [hi, except_bind_ok] at hres
          cases hx : extraitTous fmt lf with
          | error err =>
              rw [hx, except_bind_error] at hres
              exact absurd hres (by simp)
          | ok evs1 =>
              rw [hx, except_bind_ok] at hres
              cases hf : filtreM (fun e => pyPlusGrand e.magnitude 1 1) evs1 with
              | error err =>
                  rw [hf, except_bind_error] at hres
                  exact absurd hres (by simp)
              | ok evs2 =>
                  rw [hf, except_bind_ok] at hres
                  have hmem := trie_evenements_mem evs2 trier_par ordre evs hres e he
                  obtain ⟨hp, _⟩ := filtreM_ok_mem _ evs1 evs2 hf e hmem
                  exact pyPlusGrand_ok_true _ hp

/-- C5 witness: the page computed from a concrete stored feed serves one
record, of magnitude `2.5 > 0.1`. -/
theorem C5_filtre_seuil_temoin :
    ∃ v, pyNombre evenementX.magnitude = .ok v ∧ 1 / 10 < v :=
  C5_filtre_seuil (fun _ => "") (sauvegarde_json donneesExemple) "moment" "descendant"
    [evenementX] (by decide) evenementX (by simp)

/-- C6 — Sorting behaviour: (a) for every list of event records the sort
is stable — elements with equal sort keys keep their original relative
order; (b) an unknown sort key falls back to sorting by magnitude;
(c) missing source fields default to place `"Unknown"`, magnitude `0`,
and an empty timestamp string; (d) sorting by `endroit` ascending on
places `["B", "A", "C"]` returns the order `["A", "B", "C"]`. -/
theorem C6_comportement_tri :
    (∀ evenements trier_par ordre out k,
        trie_evenements evenements trier_par ordre = .ok out →
        out.filter (fun e => decide (fonction_cle trier_par e = k)) =
          evenements.filter (fun e => decide (fonction_cle trier_par e = k))) ∧
    (∀ evenements trier_par ordre,
        trier_par ≠ "magnitude" → trier_par ≠ "endroit" → trier_par ≠ "moment" →
        trie_evenements evenements trier_par ordre =
          trie_evenements evenements "magnitude" ordre) ∧
    (∀ fmt, extract_evenements fmt (Json.obj []) =
        .ok { endroit := Json.str "Unknown", magnitude := Json.num 0 0,
              moment := "", url := Json.str "" }) ∧
    trie_evenements [evenementB, evenementA, evenementC] "endroit" "ascendant" =
      .ok [evenementA, evenementB, evenementC] := by
  refine ⟨?_, ?_, ?_, ?_⟩
  · intro evenements trier_par ordre out k h
    exact trie_evenements_stable evenements trier_par ordre out h k
  · intro evenements trier_par ordre h1 h2 h3
    have hcle : fonction_cle trier_par = fonction_cle "magnitude" := by
      simp [fonction_cle, h1, h2, h3]
    simp [trie_evenements, hcle]
  · intro fmt
    rfl
  · decide

/-- C6 witness: the stability equation at the concrete `endroit` sort of
part (d), the unknown-key fallback at the key `"xyz"`, and the default
record for an empty feature. -/
theorem C6_comportement_tri_temoin :
    [evenementA, evenementB, evenementC].filter
        (fun e => decide (fonction_cle "endroit" e = Json.str "A")) =
      [evenementB, evenementA, evenementC].filter
        (fun e => decide (fonction_cle "endroit" e = Json.str "A")) ∧
    trie_evenements [evenementX] "xyz" "ascendant" =
      trie_evenements [evenementX] "magnitude" "ascendant" ∧
    extract_evenements (fun _ => "") (Json.obj []) =
      .ok { endroit := Json.str "Unknown", magnitude := Json.num 0 0,
            moment := "", url := Json.str "" } :=
  ⟨C6_comportement_tri.1 [evenementB, evenementA, evenementC] "endroit" "ascendant"
      [evenementA, evenementB, evenementC] (Json.str "A") (by decide),
   C6_comportement_tri.2.1 [evenementX] "xyz" "ascendant"
      (by decide) (by decide) (by decide),
   C6_comportement_tri.2.2.1 (fun _ => "")⟩

/-- C9 — The table page is a pure function of the persisted file and the
`tri` / `ordre` query parameters: the handler re-reads the file on every
request and keeps no state of its own, so any two requests whose query
strings agree on `tri` and `ordre` against the same file content compute
identical row sequences. -/
theorem C9_page_fonction_pure (fmt : ℚ → String) (fichier : Option String)
    (q1 q2 : List (String × String))
    (h1 : q1.lookup "tri" = q2.lookup "tri")
    (h2 : q1.lookup "ordre" = q2.lookup "ordre") :
    page_web_requete fmt fichier q1 = page_web_requete fmt fichier q2 := by
  simp only [page_web_requete, requete_query, h1, h2]

/-- C9 witness: a query with an extra unrelated parameter yields the same
rows as the plain query on a concrete saved file. -/
theorem C9_page_fonction_pure_temoin :
    page_web_requete (fun _ => "") (sauvegarde_json donneesExemple)
        [("tri", "endroit"), ("autre", "1")] =
      page_web_requete (fun _ => "") (sauvegarde_json donneesExemple)
        [("tri", "endroit")] :=
  C9_page_fonction_pure (fun _ => "") (sauvegarde_json donneesExemple)
    [("tri", "endroit"), ("autre", "1")] [("tri", "endroit")] rfl rfl
